import Mathlib

/-!
Verification development for the answer-matching and scoring engine of the
HelloAgents evaluation harness.

The Go source is shallowly embedded: Go `float64` scores are modelled as `ℚ`
(all arithmetic that the claims touch is exact decimal arithmetic),
`interface{}` values decoded from JSON are modelled by the mutual inductive
`Value`, Go maps are modelled as association lists built with
last-write-wins insertion (as `encoding/json` does), and fallible Go
functions return `Option`/`Except`.  Unicode-dependent Go library functions
(`strings.ToLower`, `unicode.IsPunct`, `unicode.IsSpace`) are modelled on
the ASCII/Latin-1 + common-CJK-punctuation fragment that the benchmark data
exercises.
-/

set_option autoImplicit false
set_option allowUnsafeReducibility true
attribute [semireducible] Rat.add Rat.sub Rat.mul Rat.inv Rat.div Rat.ofScientific Rat.blt Rat.normalize

namespace HelloAgents

/-- Models Go `unicode.IsSpace` (the Latin-1 table plus the White_Space
property list used beyond Latin-1). -/
def goIsSpace (c : Char) : Bool :=
  c = '\t' || c = '\n' || c = Char.ofNat 11 || c = Char.ofNat 12 || c = '\r' || c = ' ' ||
  c = Char.ofNat 133 || c = Char.ofNat 160 ||
  c = Char.ofNat 5760 ||
  (Char.ofNat 8192 ≤ c && c ≤ Char.ofNat 8202) ||
  c = Char.ofNat 8232 || c = Char.ofNat 8233 || c = Char.ofNat 8239 ||
  c = Char.ofNat 8287 || c = Char.ofNat 12288

/-- Models the `\s` character class of Go's `regexp` package, which is the
ASCII-only class `[\t\n\f\r ]`. -/
def reIsSpace (c : Char) : Bool :=
  c = '\t' || c = '\n' || c = (Char.ofNat 12) || c = '\r' || c = ' '

/-- Models Go `unicode.IsPunct` (Unicode category P) on the ASCII range,
plus the common Latin-1 and CJK punctuation that appears in the benchmark
data.  Category-S characters such as `$ + < = > ^ ~` are deliberately not
punctuation, exactly as in Go. -/
def goIsPunct (c : Char) : Bool :=
  c = '!' || c = '\"' || c = '#' || c = '%' || c = '&' || c = '\'' ||
  c = '(' || c = ')' || c = '*' || c = ',' || c = '-' || c = '.' ||
  c = '/' || c = ':' || c = ';' || c = '?' || c = '@' || c = '[' ||
  c = '\\' || c = ']' || c = '_' || c = Char.ofNat 123 || c = Char.ofNat 125 ||
  c = '¡' || c = '§' || c = '«' || c = '¶' || c = '·' || c = '»' || c = '¿' ||
  c = '：' || c = '，' || c = '。' || c = '！' || c = '？' || c = '；' || c = '、'

/-- Models Go `strings.ToLower` on a single character (ASCII fragment of the
Unicode simple case mapping). -/
def goToLower (c : Char) : Char :=
  if 'A' ≤ c ∧ c ≤ 'Z' then Char.ofNat (c.toNat + 32) else c

/-- Case-insensitive character comparison, models one step of Go
`strings.EqualFold` (ASCII fragment). -/
def charEqFold (a b : Char) : Bool :=
  goToLower a = goToLower b

/-- Models Go `strings.EqualFold` (ASCII fragment of simple case folding). -/
def goEqualFold (a b : String) : Bool :=
  (a.toList.map goToLower) = (b.toList.map goToLower)

/-- Models Go `strings.TrimSpace` on a character list. -/
def goTrimSpace (cs : List Char) : List Char :=
  ((cs.dropWhile goIsSpace).reverse.dropWhile goIsSpace).reverse

/-- Models Go `strings.Contains s sub` (substring containment) on
character lists. -/
def goContainsList (s sub : List Char) : Bool :=
  sub.isPrefixOf s ||
    match s with
    | [] => false
    | _ :: rest => goContainsList rest sub

/-- Models Go `strings.Contains` on strings. -/
def goContains (s sub : String) : Bool :=
  goContainsList s.toList sub.toList

/-- Word splitter of Go `strings.Fields`: splits around runs of
`unicode.IsSpace` characters; `acc` holds the current word reversed. -/
def goFieldsAux : List Char → List Char → List (List Char)
  | [], acc => if acc.isEmpty then [] else [acc.reverse]
  | c :: rest, acc =>
    if goIsSpace c then
      if acc.isEmpty then goFieldsAux rest [] else acc.reverse :: goFieldsAux rest []
    else goFieldsAux rest (c :: acc)

/-- Models Go `strings.Fields` on a character list. -/
def goFields (cs : List Char) : List (List Char) :=
  goFieldsAux cs []

/-- Joins words with single spaces; models
`strings.Join(strings.Fields(s), " ")` when applied to `goFields`. -/
def joinSpaces : List (List Char) → List Char
  | [] => []
  | [w] => w
  | w :: ws => w ++ ' ' :: joinSpaces ws

mutual

/-- Models a JSON value decoded by Go `encoding/json` into
`interface{}`: `null`, booleans, numbers (always `float64` in Go, modelled
as `ℚ`), strings, arrays, and objects. -/
inductive Value where
  | null : Value
  | bool (b : Bool) : Value
  | num (q : ℚ) : Value
  | str (s : String) : Value
  | arr (elems : Elems) : Value
  | obj (fields : Fields) : Value

/-- Elements of a JSON array. -/
inductive Elems where
  | nil : Elems
  | cons (hd : Value) (tl : Elems) : Elems

/-- Key/value entries of a JSON object, in insertion order (a model of a Go
`map[string]interface{}`; keys produced by the JSON decoder are unique). -/
inductive Fields where
  | nil : Fields
  | cons (key : String) (val : Value) (tl : Fields) : Fields

end

/-- The elements of an `Elems` as a Lean list. -/
def Elems.toList : Elems → List Value
  | .nil => []
  | .cons v tl => v :: Elems.toList tl

/-- The entries of a `Fields` as a Lean association list. -/
def Fields.toPairs : Fields → List (String × Value)
  | .nil => []
  | .cons k v tl => (k, v) :: Fields.toPairs tl

/-- Lookup of a key in a `Fields`, first occurrence wins (models Go map
lookup; decoder-produced fields have unique keys). -/
def Fields.lookup : Fields → String → Option Value
  | .nil, _ => none
  | .cons k v tl, key => if k = key then some v else Fields.lookup tl key

/-- Number of entries (models Go `len` of the map). -/
def Fields.length : Fields → Nat
  | .nil => 0
  | .cons _ _ tl => Fields.length tl + 1

/-- Counts entries satisfying a predicate. -/
def Fields.countP (p : String → Value → Bool) : Fields → Nat
  | .nil => 0
  | .cons k v tl => (if p k v then 1 else 0) + Fields.countP p tl

/-- Map assignment `m[k] = v` of Go: overwrites an existing entry in place,
otherwise appends. -/
def Fields.insertGo : Fields → String → Value → Fields
  | .nil, k, v => .cons k v .nil
  | .cons k2 v2 tl, k, v =>
    if k2 = k then .cons k v tl else .cons k2 v2 (Fields.insertGo tl k v)

/-- Opening brace character (written via its code point). -/
def lbraceChar : Char := Char.ofNat 123

/-- Closing brace character (written via its code point). -/
def rbraceChar : Char := Char.ofNat 125

/-- JSON insignificant whitespace (space, tab, newline, carriage return). -/
def jsonIsSpace (c : Char) : Bool :=
  c = ' ' || c = '\t' || c = '\n' || c = '\r'

/-- Skips JSON whitespace. -/
def skipJsonWs (cs : List Char) : List Char :=
  cs.dropWhile jsonIsSpace

/-- Hex digit value, if any. -/
def hexDigitVal (c : Char) : Option Nat :=
  if '0' ≤ c ∧ c ≤ '9' then some (c.toNat - 48)
  else if 'a' ≤ c ∧ c ≤ 'f' then some (c.toNat - 87)
  else if 'A' ≤ c ∧ c ≤ 'F' then some (c.toNat - 55)
  else none

/-- Body of a JSON string literal (after the opening quote): returns the
decoded content and the input after the closing quote.  Handles the JSON
escapes; `\uXXXX` is decoded to the given code point (an invalid scalar
value falls back to `Char.ofNat`'s default, a simplification of Go's
surrogate handling that the claims do not exercise). -/
def parseJsonStringAux : List Char → Option (List Char × List Char)
  | [] => none
  | '\"' :: rest => some ([], rest)
  | '\\' :: esc =>
    match esc with
    | '\"' :: r => (parseJsonStringAux r).map (fun (s, t) => ('\"' :: s, t))
    | '\\' :: r => (parseJsonStringAux r).map (fun (s, t) => ('\\' :: s, t))
    | '/' :: r => (parseJsonStringAux r).map (fun (s, t) => ('/' :: s, t))
    | 'b' :: r => (parseJsonStringAux r).map (fun (s, t) => (Char.ofNat 8 :: s, t))
    | 'f' :: r => (parseJsonStringAux r).map (fun (s, t) => (Char.ofNat 12 :: s, t))
    | 'n' :: r => (parseJsonStringAux r).map (fun (s, t) => ('\n' :: s, t))
    | 'r' :: r => (parseJsonStringAux r).map (fun (s, t) => ('\r' :: s, t))
    | 't' :: r => (parseJsonStringAux r).map (fun (s, t) => ('\t' :: s, t))
    | 'u' :: h1 :: h2 :: h3 :: h4 :: r =>
      match hexDigitVal h1, hexDigitVal h2, hexDigitVal h3, hexDigitVal h4 with
      | some a, some b, some c, some d =>
        (parseJsonStringAux r).map (fun (s, t) =>
          (Char.ofNat (((a * 16 + b) * 16 + c) * 16 + d) :: s, t))
      | _, _, _, _ => none
    | _ => none
  | c :: rest => (parseJsonStringAux rest).map (fun (s, t) => (c :: s, t))

/-- Value of a digit run. -/
def digitsToNat (ds : List Char) : Nat :=
  ds.foldl (fun a c => a * 10 + (c.toNat - 48)) 0

/-- A JSON number per RFC 8259 (`-?(0|[1-9][0-9]*)(\.[0-9]+)?([eE][+-]?[0-9]+)?`),
returned as an exact rational (Go decodes into `float64`; the claims only
exercise decimally-representable values, where the two agree on equality). -/
def parseJsonNumber (cs : List Char) : Option (ℚ × List Char) :=
  let (neg, cs1) := match cs with
    | '-' :: r => (true, r)
    | _ => (false, cs)
  let ip := cs1.takeWhile Char.isDigit
  if ip.isEmpty then none
  else if 1 < ip.length ∧ ip.head? = some '0' then none
  else
    let rest1 := cs1.dropWhile Char.isDigit
    let (fracDigits, rest2) := match rest1 with
      | '.' :: r =>
        let fd := r.takeWhile Char.isDigit
        (some fd, r.dropWhile Char.isDigit)
      | _ => (none, rest1)
    match fracDigits with
    | some [] => none
    | _ =>
      let (expPart, rest3) := match rest2 with
        | 'e' :: r => (some r, r)
        | 'E' :: r => (some r, r)
        | _ => (none, rest2)
      let base : ℚ := (digitsToNat ip : ℚ) +
        (match fracDigits with
         | some fd => (digitsToNat fd : ℚ) / ((10 : ℚ) ^ fd.length)
         | none => 0)
      let signed : ℚ := if neg then -base else base
      match expPart with
      | none => some (signed, rest3)
      | some er =>
        let (eneg, er1) := match er with
          | '-' :: r => (true, r)
          | '+' :: r => (false, r)
          | _ => (false, er)
        let eds := er1.takeWhile Char.isDigit
        if eds.isEmpty then none
        else
          let rest4 := er1.dropWhile Char.isDigit
          let e : ℤ := if eneg then -(digitsToNat eds : ℤ) else (digitsToNat eds : ℤ)
          some (signed * (10 : ℚ) ^ e, rest4)

mutual

/-- Recursive-descent JSON value parser (models `encoding/json` decoding
into `interface{}`); the fuel argument dominates the recursion depth and is
set generously by the wrapper. -/
def parseJsonVal : Nat → List Char → Option (Value × List Char)
  | 0, _ => none
  | fuel + 1, cs =>
    match skipJsonWs cs with
    | [] => none
    | c :: rest =>
      if c = 'n' then
        match rest with
        | 'u' :: 'l' :: 'l' :: r => some (.null, r)
        | _ => none
      else if c = 't' then
        match rest with
        | 'r' :: 'u' :: 'e' :: r => some (.bool true, r)
        | _ => none
      else if c = 'f' then
        match rest with
        | 'a' :: 'l' :: 's' :: 'e' :: r => some (.bool false, r)
        | _ => none
      else if c = '\"' then
        match parseJsonStringAux rest with
        | some (content, r) => some (.str content.asString, r)
        | none => none
      else if c = '[' then
        match skipJsonWs rest with
        | ']' :: r2 => some (.arr .nil, r2)
        | cs2 =>
          match parseJsonArrElems fuel cs2 with
          | some (es, r2) => some (.arr es, r2)
          | none => none
      else if c = lbraceChar then
        match skipJsonWs rest with
        | cs2 =>
          match cs2 with
          | c2 :: r2 =>
            if c2 = rbraceChar then some (.obj .nil, r2)
            else
              match parseJsonObjMembers fuel .nil cs2 with
              | some (fs, r3) => some (.obj fs, r3)
              | none => none
          | [] => none
      else if c = '-' ∨ c.isDigit then
        match parseJsonNumber (c :: rest) with
        | some (q, r) => some (.num q, r)
        | none => none
      else none

/-- One or more comma-separated array elements followed by `]`. -/
def parseJsonArrElems : Nat → List Char → Option (Elems × List Char)
  | 0, _ => none
  | fuel + 1, cs =>
    match parseJsonVal fuel cs with
    | none => none
    | some (v, rest) =>
      match skipJsonWs rest with
      | ',' :: r2 =>
        match parseJsonArrElems fuel r2 with
        | some (tl, r3) => some (.cons v tl, r3)
        | none => none
      | ']' :: r2 => some (.cons v .nil, r2)
      | _ => none

/-- One or more comma-separated object members followed by the closing
brace; later duplicate keys overwrite earlier ones exactly as Go map
assignment does. -/
def parseJsonObjMembers : Nat → Fields → List Char → Option (Fields × List Char)
  | 0, _, _ => none
  | fuel + 1, acc, cs =>
    match skipJsonWs cs with
    | '\"' :: rest =>
      match parseJsonStringAux rest with
      | none => none
      | some (key, r1) =>
        match skipJsonWs r1 with
        | ':' :: r2 =>
          match parseJsonVal fuel r2 with
          | none => none
          | some (v, r3) =>
            let acc2 := acc.insertGo key.asString v
            match skipJsonWs r3 with
            | ',' :: r4 => parseJsonObjMembers fuel acc2 r4
            | c4 :: r4 =>
              if c4 = rbraceChar then some (acc2, r4) else none
            | [] => none
        | _ => none
    | _ => none

end

/-- Models Go `json.Unmarshal(s, &v)` for `v : interface{}`: one complete
JSON value, with only whitespace allowed after it. -/
def goJsonUnmarshal (s : String) : Option Value :=
  match parseJsonVal (3 * (s.length + 1)) s.toList with
  | some (v, rest) => if (skipJsonWs rest).isEmpty then some v else none
  | none => none

/-- Insertion into a key-sorted list of formatted map entries (Go `fmt`
prints map keys in sorted order). -/
def insertPairSorted (kv : String × String) : List (String × String) → List (String × String)
  | [] => [kv]
  | kv2 :: tl => if kv.1 ≤ kv2.1 then kv :: kv2 :: tl else kv2 :: insertPairSorted kv tl

/-- Sorts formatted map entries by key. -/
def sortPairsByKey : List (String × String) → List (String × String)
  | [] => []
  | kv :: tl => insertPairSorted kv (sortPairsByKey tl)

/-- Joins strings with single spaces (Go `fmt`'s element separator). -/
def joinWithSpace : List String → String
  | [] => ""
  | [w] => w
  | w :: ws => w ++ " " ++ joinWithSpace ws

/-- Decimal digits of a fractional part, up to the given cap (17 digits,
the longest shortest-representation of a `float64`).  On the decimally
representable values that actually flow through the benchmarks this agrees
with Go's shortest-decimal rendering. -/
def fracDigitsStr : Nat → ℚ → String
  | 0, _ => ""
  | n + 1, r =>
    if r = 0 then ""
    else
      let r10 := r * 10
      let d := ⌊r10⌋
      toString d.toNat ++ fracDigitsStr n (r10 - (d : ℚ))

/-- Models Go `fmt.Sprintf("%v", x)` for a `float64`: integral values print
with no decimal point, fractional values with their decimal expansion (the
scientific-notation switch for very large/small magnitudes is not
modelled; the claims do not exercise it). -/
def goFormatFloat (q : ℚ) : String :=
  let sign := if q < 0 then "-" else ""
  let a := |q|
  let ipart := ⌊a⌋
  let fr := a - (ipart : ℚ)
  if fr = 0 then sign ++ toString ipart.toNat
  else sign ++ toString ipart.toNat ++ "." ++ fracDigitsStr 17 fr

mutual

/-- Models Go `fmt.Sprintf("%v", x)` on decoded JSON values: strings print
as-is, booleans as `true`/`false`, `nil` as `<nil>`, slices as
space-separated `[...]`, and maps as `map[k:v ...]` with keys sorted. -/
def goFormatValue : Value → String
  | .null => "<nil>"
  | .bool true => "true"
  | .bool false => "false"
  | .num q => goFormatFloat q
  | .str s => s
  | .arr es => "[" ++ joinWithSpace (goFormatElemsList es) ++ "]"
  | .obj fs =>
    "map[" ++
      joinWithSpace ((sortPairsByKey (goFormatFieldPairs fs)).map
        (fun kv => kv.1 ++ ":" ++ kv.2)) ++ "]"

/-- Formats each array element. -/
def goFormatElemsList : Elems → List String
  | .nil => []
  | .cons v tl => goFormatValue v :: goFormatElemsList tl

/-- Formats each map entry's value. -/
def goFormatFieldPairs : Fields → List (String × String)
  | .nil => []
  | .cons k v tl => (k, goFormatValue v) :: goFormatFieldPairs tl

end

/-- Models `evaluation.FunctionCall`: a name and an argument map. -/
structure FunctionCall where
  Name : String
  Arguments : Fields

namespace bfcl

/-- Models `fmt.Sscanf(s, "%f", &f)` of bfcl `toFloat64`: skips leading
spaces, then scans an optional sign and a decimal number with optional
fraction and exponent; trailing characters are ignored (a scan of zero
digits fails). -/
def parseFloatScan (s : String) : Option ℚ :=
  let cs := s.toList.dropWhile goIsSpace
  let (neg, cs1) := match cs with
    | '-' :: r => (true, r)
    | '+' :: r => (false, r)
    | _ => (false, cs)
  let ip := cs1.takeWhile Char.isDigit
  let rest1 := cs1.dropWhile Char.isDigit
  let (fd, rest2) := match rest1 with
    | '.' :: r => (r.takeWhile Char.isDigit, r.dropWhile Char.isDigit)
    | _ => ([], rest1)
  if ip.isEmpty ∧ fd.isEmpty then none
  else
    let base : ℚ := (digitsToNat ip : ℚ) + (digitsToNat fd : ℚ) / (10 : ℚ) ^ fd.length
    let signed : ℚ := if neg then -base else base
    let scanExp : List Char → Option ℚ := fun er =>
      let (eneg, er1) := match er with
        | '-' :: r => (true, r)
        | '+' :: r => (false, r)
        | _ => (false, er)
      let eds := er1.takeWhile Char.isDigit
      if eds.isEmpty then some signed
      else
        let e : ℤ := if eneg then -(digitsToNat eds : ℤ) else (digitsToNat eds : ℤ)
        some (signed * (10 : ℚ) ^ e)
    match rest2 with
    | 'e' :: r => scanExp r
    | 'E' :: r => scanExp r
    | _ => some signed

/-- Models bfcl `toFloat64`: numbers pass through (every JSON number is a
`float64` in Go), strings are scanned with `%f`, every other dynamic type
fails. -/
def toFloat64 : Value → Option ℚ
  | .num q => some q
  | .str s => parseFloatScan s
  | _ => none

/-- Models bfcl `compareValues`: stringified (`%v`) equality, then
case-insensitive equality, then numeric equality after best-effort
coercion — first satisfied check wins. -/
def compareValues (a b : Value) : Bool :=
  let aStr := goFormatValue a
  let bStr := goFormatValue b
  if aStr = bStr then true
  else if goEqualFold aStr bStr then true
  else
    match toFloat64 a, toFloat64 b with
    | some aNum, some bNum => decide (aNum = bNum)
    | _, _ => false

/-- The parameter loop of bfcl `compareFunctionCall`: counts expected
parameters whose predicted value exists and compares equal. -/
def matchedParams (predicted expected : FunctionCall) : Nat :=
  Fields.countP (fun paramName expectedVal =>
    match predicted.Arguments.lookup paramName with
    | some predictedVal => compareValues predictedVal expectedVal
    | none => false) expected.Arguments

/-- Models bfcl `compareFunctionCall`: a name mismatch scores 0, a matching
name with no expected parameters scores 1.0, otherwise the matched-parameter
fraction. -/
def compareFunctionCall (predicted expected : FunctionCall) : ℚ :=
  if predicted.Name ≠ expected.Name then 0
  else if expected.Arguments.length = 0 then 1
  else (matchedParams predicted expected : ℚ) / (expected.Arguments.length : ℚ)

/-- The inner loop of bfcl `evaluateMatch`: the best score of one expected
call over all predicted calls, starting from 0 and raised whenever a pair
scores strictly higher. -/
def bestScore (predicted : List FunctionCall) (expected : FunctionCall) : ℚ :=
  predicted.foldl (fun best p =>
    let score := compareFunctionCall p expected
    if score > best then score else best) 0

/-- Outcome of bfcl `evaluateMatch`: the success flag, the average score,
and the `gt_parse_error` diagnostic detail (the only details entry that the
claims depend on). -/
structure MatchResult where
  success : Bool
  score : ℚ
  gtParseError : Option String

/-- Models the scoring part of bfcl `evaluateMatch`, after ground-truth
parsing: empty predicted or expected lists fail with score 0; otherwise the
matched count and total score accumulate over expected calls and success
requires every expected call to reach best score ≥ 1. -/
def evaluateMatchCore (predicted expected : List FunctionCall) : MatchResult :=
  if predicted.length = 0 then ⟨false, 0, none⟩
  else if expected.length = 0 then ⟨false, 0, none⟩
  else
    let acc := expected.foldl (fun (acc : Nat × ℚ) e =>
      let b := bestScore predicted e
      (acc.1 + (if b ≥ 1 then 1 else 0), acc.2 + b)) (0, 0)
    let avgScore := acc.2 / (expected.length : ℚ)
    ⟨decide (acc.1 = expected.length), avgScore, none⟩

/-- Word characters of the regexp class `\w`: `[0-9A-Za-z_]`. -/
def isWordChar (c : Char) : Bool :=
  c.isAlphanum || c = '_'

/-- Quote characters trimmed from unparsable Python argument values
(the cutset of `strings.Trim(paramVal, "\"'")`). -/
def isQuoteChar (c : Char) : Bool :=
  c = '\"' || c = '\''

/-- Models `strings.Trim(s, "\"'")`. -/
def trimQuotes (cs : List Char) : List Char :=
  ((cs.dropWhile isQuoteChar).reverse.dropWhile isQuoteChar).reverse

/-- Scanner for the argument regexp `(\w+)\s*=\s*([^,]+)` of
`parsePythonFunctionCall` (`FindAllStringSubmatch`): successive
non-overlapping leftmost matches of a word, optional ASCII space, `=`,
optional ASCII space, and a non-empty comma-free value.  The fuel is the
input length; the scan advances at least one character per step. -/
def scanPyArgsF : Nat → List Char → List (String × String)
  | 0, _ => []
  | _ + 1, [] => []
  | n + 1, c :: rest =>
    if isWordChar c then
      let w := (c :: rest).takeWhile isWordChar
      let r1 := (c :: rest).dropWhile isWordChar
      let r2 := r1.dropWhile reIsSpace
      match r2 with
      | '=' :: r3 =>
        let r4 := r3.dropWhile reIsSpace
        let v := r4.takeWhile (fun x => x ≠ ',')
        let r5 := r4.dropWhile (fun x => x ≠ ',')
        if v.isEmpty then scanPyArgsF n rest
        else (w.asString, v.asString) :: scanPyArgsF n r5
      | _ => scanPyArgsF n rest
    else scanPyArgsF n rest

/-- Models bfcl `parsePythonFunctionCall`: the anchored regexp
`^(\w+)\((.*)\)$` on the trimmed string (`.` does not match a newline),
then each `name=value` argument where the value is parsed as JSON and
falls back to a quote-trimmed string. -/
def parsePythonFunctionCall (s : String) : Option FunctionCall :=
  let cs := goTrimSpace s.toList
  let namePart := cs.takeWhile isWordChar
  let rest := cs.dropWhile isWordChar
  if namePart.isEmpty then none
  else
    match rest with
    | '(' :: inner =>
      match inner.reverse with
      | ')' :: revMid =>
        let mid := revMid.reverse
        if mid.any (fun c => c = '\n') then none
        else
          let args := (scanPyArgsF mid.length mid).foldl (fun fs nv =>
            let paramVal := (goTrimSpace nv.2.toList).asString
            let value := match goJsonUnmarshal paramVal with
              | some jv => jv
              | none => Value.str (trimQuotes paramVal.toList).asString
            fs.insertGo nv.1 value) Fields.nil
          some ⟨namePart.asString, args⟩
      | _ => none
    | _ => none

/-- Canonical expected parameter value of the BFCL v4 branch: a non-empty
list collapses to its first element (first acceptable value), anything else
stays as-is. -/
def canonParamVal : Value → Value
  | .arr (.cons x _) => x
  | v => v

/-- Canonicalises every entry of a v4 parameter map. -/
def canonParams : Fields → Fields
  | .nil => .nil
  | .cons k v tl => .cons k (canonParamVal v) (canonParams tl)

/-- The BFCL v4 branch of `parseGroundTruthItem`: every key of the map is a
function name, its value a parameter map whose list-valued entries collapse
to their first element; a non-map value yields empty arguments. -/
def gtMapCalls : Fields → List FunctionCall
  | .nil => []
  | .cons funcName params tl =>
    let args := match params with
      | .obj pm => canonParams pm
      | _ => Fields.nil
    ⟨funcName, args⟩ :: gtMapCalls tl

mutual

/-- Models bfcl `parseGroundTruthItem`.  Its Go error return is always nil
(failed Python-call parses are silently skipped), so it is total here:
lists flatten recursively, a map with a string `name` is the standard form,
any other map is the v4 name-to-parameters form, strings are parsed as
Python calls, and every other shape contributes nothing. -/
def parseGroundTruthItem : Value → List FunctionCall
  | .arr items => parseGroundTruthItems items
  | .obj fs =>
    match fs.lookup "name" with
    | some (.str nm) =>
      let args := match fs.lookup "arguments" with
        | some (.obj argFs) => argFs
        | _ => Fields.nil
      [⟨nm, args⟩]
    | _ => gtMapCalls fs
  | .str s =>
    match parsePythonFunctionCall s with
    | some call => [call]
    | none => []
  | _ => []

/-- Flattens ground-truth items of a list entry. -/
def parseGroundTruthItems : Elems → List FunctionCall
  | .nil => []
  | .cons v tl => parseGroundTruthItem v ++ parseGroundTruthItems tl

end

/-- Models bfcl `parseGroundTruth`.  The fuel bounds only the
JSON-string-re-parse recursion (each re-parse strictly shrinks the
string, so the wrapper's fuel always suffices). -/
def parseGroundTruthFuel : Nat → Value → Except String (List FunctionCall)
  | _, .arr items => .ok (parseGroundTruthItems items)
  | _, .obj fs => .ok (parseGroundTruthItem (.obj fs))
  | fuel, .str s =>
    match goJsonUnmarshal s with
    | none => .error "解析字符串 ground truth 失败: 无效 JSON"
    | some parsed =>
      match fuel with
      | 0 => .error "解析字符串 ground truth 失败: 递归过深"
      | n + 1 => parseGroundTruthFuel n parsed
  | _, _ => .error "不支持的 ground truth 格式"

/-- Fuel for `parseGroundTruth`: one more than the length of a string
entry dominates the re-parse depth. -/
def gtFuel : Value → Nat
  | .str s => s.length + 1
  | _ => 1

/-- Models bfcl `parseGroundTruth` (wrapper). -/
def parseGroundTruth (gt : Value) : Except String (List FunctionCall) :=
  parseGroundTruthFuel (gtFuel gt) gt

/-- Models bfcl `evaluateMatch` end to end: parse the ground truth (a parse
error fails the sample with score 0 and the `gt_parse_error` detail),
then score the predicted calls. -/
def evaluateMatch (predicted : List FunctionCall) (groundTruth : Value) : MatchResult :=
  match parseGroundTruth groundTruth with
  | .error e => ⟨false, 0, some e⟩
  | .ok expectedCalls => evaluateMatchCore predicted expectedCalls

end bfcl

/-- Decodes one element of a `[]evaluation.FunctionCall` unmarshal: `null`
leaves the zero struct, an object fills `Name` from a string-typed `name`
field (absent or `null` leaves the zero string; any other dynamic type is a
decode error) and `Arguments` from an object-typed `arguments` field
likewise; unknown fields are ignored; any other shape errors. -/
def decodeCall : Value → Option FunctionCall
  | .null => some ⟨"", .nil⟩
  | .obj fs =>
    let nameOk : Option String := match fs.lookup "name" with
      | none => some ""
      | some .null => some ""
      | some (.str s) => some s
      | some _ => none
    let argsOk : Option Fields := match fs.lookup "arguments" with
      | none => some .nil
      | some .null => some .nil
      | some (.obj a) => some a
      | some _ => none
    match nameOk, argsOk with
    | some n, some a => some ⟨n, a⟩
    | _, _ => none
  | _ => none

/-- Decodes every element of a JSON array of calls. -/
def decodeCallElems : Elems → Option (List FunctionCall)
  | .nil => some []
  | .cons v tl =>
    match decodeCall v, decodeCallElems tl with
    | some c, some cs => some (c :: cs)
    | _, _ => none

/-- Models `json.Unmarshal` into `[]evaluation.FunctionCall`: `null` leaves
the nil slice (no error), an array decodes elementwise, anything else is a
decode error. -/
def decodeCallsTop : Value → Option (List FunctionCall)
  | .null => some []
  | .arr es => decodeCallElems es
  | _ => none

/-- Unmarshals a string as a list of calls. -/
def unmarshalCalls (s : String) : Option (List FunctionCall) :=
  (goJsonUnmarshal s).bind decodeCallsTop

/-- Unmarshals a string as a single call struct. -/
def unmarshalSingleCall (s : String) : Option FunctionCall :=
  (goJsonUnmarshal s).bind decodeCall

/-- Drops characters up to and through the first occurrence of `pat`,
returning how many characters were dropped in total together with the
remainder; `none` when `pat` does not occur. -/
def dropThrough : List Char → List Char → Option (Nat × List Char)
  | cs, pat =>
    if pat.isPrefixOf cs then some (pat.length, cs.drop pat.length)
    else
      match cs with
      | [] => none
      | _ :: rest => (dropThrough rest pat).map (fun nt => (nt.1 + 1, nt.2))

namespace bfcl

/-- Completion of the lazily-quantified bracket regexp
`\[[\s\S]*?\{[\s\S]*?"name"[\s\S]*?\}[\s\S]*?\]` from just after an opening
`[`: each lazy gap takes the earliest following delimiter (the RE2
preference order), and if any delimiter is missing no match starts here
(nor, by suffix monotonicity, at any later `[`).  Returns how many
characters of the remainder the match consumes. -/
def tryBracketAt (cs : List Char) : Option Nat := do
  let (n1, r1) ← dropThrough cs [lbraceChar]
  let (n2, r2) ← dropThrough r1 ('\"' :: 'n' :: 'a' :: 'm' :: 'e' :: '\"' :: [])
  let (n3, r3) ← dropThrough r2 [rbraceChar]
  let (n4, _) ← dropThrough r3 [']']
  pure (n1 + n2 + n3 + n4)

/-- `FindAllString` of the bracket regexp: leftmost matches, resuming after
each match, advancing one character when no match starts at the current
position.  The fuel is the input length (each step consumes a character). -/
def scanBracketRegionsF : Nat → List Char → List (List Char)
  | 0, _ => []
  | _ + 1, [] => []
  | n + 1, c :: rest =>
    if c = '[' then
      match tryBracketAt rest with
      | some used => (c :: rest.take used) :: scanBracketRegionsF n (rest.drop used)
      | none => scanBracketRegionsF n rest
    else scanBracketRegionsF n rest

end bfcl

/-- The fence of a Markdown code block. -/
def fence : List Char := '`' :: '`' :: '`' :: []

/-- Completion of the code-block regexp
(three backticks, then `(?:json)?`, then greedy `\s*`, then a lazy capture
up to the next fence) from just after an opening fence: returns the capture
and the input after the closing fence. -/
def tryCodeBlockAt (cs : List Char) : Option (List Char × List Char) :=
  let cs1 := if ("json".toList).isPrefixOf cs then cs.drop 4 else cs
  let cs2 := cs1.dropWhile reIsSpace
  match dropThrough cs2 fence with
  | some (n, r) => some (cs2.take (n - 3), r)
  | none => none

/-- `FindAllStringSubmatch` of the code-block regexp: all captures in
order, resuming after each closing fence. -/
def scanCodeBlocksF : Nat → List Char → List (List Char)
  | 0, _ => []
  | _ + 1, [] => []
  | n + 1, c :: rest =>
    if fence.isPrefixOf (c :: rest) then
      match tryCodeBlockAt ((c :: rest).drop 3) with
      | some (cap, r) => cap :: scanCodeBlocksF n r
      | none => scanCodeBlocksF n rest
    else scanCodeBlocksF n rest

namespace bfcl

/-- The bracket-region loop of `extractFunctionCalls`: the first region
that unmarshals to a non-empty call list wins. -/
def tryRegions : List (List Char) → Option (List FunctionCall)
  | [] => none
  | r :: tl =>
    match unmarshalCalls r.asString with
    | some calls => if calls.length > 0 then some calls else tryRegions tl
    | none => tryRegions tl

/-- The code-block loop of `extractFunctionCalls`: per block, first a call
list (any successful unmarshal returns, even an empty list), then a single
call with a non-empty name. -/
def tryCodeBlocks : List (List Char) → Option (List FunctionCall)
  | [] => none
  | b :: tl =>
    let content := (goTrimSpace b).asString
    match unmarshalCalls content with
    | some calls => some calls
    | none =>
      match unmarshalSingleCall content with
      | some c => if c.Name ≠ "" then some [c] else tryCodeBlocks tl
      | none => tryCodeBlocks tl

/-- Models bfcl `extractFunctionCalls`: after trimming, (1) the whole
response as a JSON call list, (2) bracketed `"name"` regions, (3) the whole
response as a single named call, (4) fenced code blocks; otherwise an
extraction error.  (A failed `json.Unmarshal` is modelled as leaving its
target untouched; the Go partial-fill corner case is not observable in the
claims.) -/
def extractFunctionCalls (response : String) : Except String (List FunctionCall) :=
  let respCs := goTrimSpace response.toList
  let resp := respCs.asString
  if resp = "" then .error "空响应"
  else
    match unmarshalCalls resp with
    | some calls => .ok calls
    | none =>
      match tryRegions (scanBracketRegionsF respCs.length respCs) with
      | some calls => .ok calls
      | none =>
        match unmarshalSingleCall resp with
        | some c =>
          if c.Name ≠ "" then .ok [c]
          else
            match tryCodeBlocks (scanCodeBlocksF respCs.length respCs) with
            | some calls => .ok calls
            | none => .error "无法从响应中提取函数调用"
        | none =>
          match tryCodeBlocks (scanCodeBlocksF respCs.length respCs) with
          | some calls => .ok calls
          | none => .error "无法从响应中提取函数调用"

end bfcl

/-- Models `evaluation.Sample` (the fields the claims touch). -/
structure Sample where
  ID : String
  Input : String
  Expected : Value
  Category : String
  Level : Nat

/-- Models `evaluation.SampleResult` (the fields the claims touch; the
`gt_parse_error` entry of the open `Details` map is carried as its own
field). -/
structure SampleResultM where
  SampleID : String
  Success : Bool
  PartialSuccess : Bool
  Score : ℚ
  Error : String
  GtParseError : Option String

namespace bfcl

/-- Models bfcl `EvaluateSample` after the agent invocation (the agent
call and the clock are external collaborators; `agentOut` is the returned
response or transport error, `groundTruth` the dataset's entry for the
sample, `none` when missing).  The function never returns a non-nil Go
error: every failure is recorded on the result. -/
def EvaluateSample (sample : Sample) (agentOut : Except String String)
    (groundTruth : Option Value) : SampleResultM :=
  match agentOut with
  | .error e => ⟨sample.ID, false, false, 0, e, none⟩
  | .ok response =>
    match extractFunctionCalls response with
    | .error msg => ⟨sample.ID, false, false, 0, "提取函数调用失败: " ++ msg, none⟩
    | .ok predictedCalls =>
      match groundTruth with
      | none => ⟨sample.ID, false, false, 0, "未找到 ground truth", none⟩
      | some gt =>
        let m := evaluateMatch predictedCalls gt
        ⟨sample.ID, m.success, false, m.score, "", m.gtParseError⟩

/-- Models the sample loop of bfcl `Evaluate`: every per-sample result is
appended to the detailed results and the loop continues to the next sample
(cancellation and per-sample timeouts are external IO and outside the
claims' scope). -/
def Evaluate (agentOut : Sample → Except String String)
    (groundTruthOf : Sample → Option Value) (samples : List Sample) : List SampleResultM :=
  samples.foldl (fun results sample =>
    results ++ [EvaluateSample sample (agentOut sample) (groundTruthOf sample)]) []

end bfcl

namespace gaia

/-- One `ReplaceAllString` pass of the regexp `(\d),(\d{3})` with `$1$2`:
leftmost non-overlapping matches of a digit, a comma and exactly three
digits lose the comma; the scan resumes after each match. -/
def commaStep : List Char → List Char
  | a :: ',' :: b :: c :: d :: rest =>
    if a.isDigit && b.isDigit && c.isDigit && d.isDigit then
      a :: b :: c :: d :: commaStep rest
    else a :: commaStep (',' :: b :: c :: d :: rest)
  | c :: rest => c :: commaStep rest
  | [] => []

/-- Whether the regexp `(\d),(\d{3})` matches at the head of the input. -/
def isCommaWindow : List Char → Bool
  | a :: ',' :: b :: c :: d :: _ => a.isDigit && b.isDigit && c.isDigit && d.isDigit
  | _ => false

/-- `MatchString` of the regexp `(\d),(\d{3})`: a window matches at some
position. -/
def hasCommaPattern : List Char → Bool
  | [] => false
  | c :: rest => isCommaWindow (c :: rest) || hasCommaPattern rest

/-- The replace-while-matching loop of gaia `removeNumberCommas`; the fuel
is the string length, which dominates the iteration count because every
replacing pass removes at least one character. -/
def removeCommasLoop : Nat → List Char → List Char
  | 0, s => s
  | n + 1, s => if hasCommaPattern s then removeCommasLoop n (commaStep s) else s

/-- Models gaia `removeNumberCommas`. -/
def removeNumberCommas (s : String) : String :=
  (removeCommasLoop s.length s.toList).asString

/-- The leading-article strip of gaia `normalizeAnswer`: the first matching
article of `the `, `a `, `an ` (in that order) is removed, once. -/
def stripArticle (cs : List Char) : List Char :=
  if ("the ".toList).isPrefixOf cs then cs.drop 4
  else if ("a ".toList).isPrefixOf cs then cs.drop 2
  else if ("an ".toList).isPrefixOf cs then cs.drop 3
  else cs

/-- Models `strings.TrimRightFunc(s, unicode.IsPunct)`. -/
def trimRightPunct (cs : List Char) : List Char :=
  (cs.reverse.dropWhile goIsPunct).reverse

/-- Models `strings.ReplaceAll(s, string(c), "")` for a single character. -/
def removeChar (c : Char) (cs : List Char) : List Char :=
  cs.filter (fun x => x ≠ c)

/-- Models gaia `normalizeAnswer`: trim and lowercase, strip one leading
article, trim trailing punctuation, remove the five currency/percent
symbols, remove thousands-separator commas, collapse whitespace. -/
def normalizeAnswer (answer : String) : String :=
  let a1 := (goTrimSpace answer.toList).map goToLower
  let a2 := stripArticle a1
  let a3 := trimRightPunct a2
  let a4 := removeChar '£' (removeChar '€' (removeChar '¥' (removeChar '%' (removeChar '$' a3))))
  let a5 := (removeNumberCommas a4.asString).toList
  let a6 := joinSpaces (goFields a5)
  a6.asString

/-- Models gaia `evaluateMatch`: normalize both answers, then exact
equality, else substring containment either way, else word coverage at the
0.7 threshold (only checked when the expected word list is non-empty), else
no match. -/
def evaluateMatch (predicted expected : String) : Bool × Bool :=
  let normalizedPred := normalizeAnswer predicted
  let normalizedExp := normalizeAnswer expected
  if normalizedPred = normalizedExp then (true, true)
  else if goContains normalizedPred normalizedExp || goContains normalizedExp normalizedPred then
    (false, true)
  else
    let expectedWords := goFields normalizedExp.toList
    if 0 < expectedWords.length then
      let matchedCount := expectedWords.countP (fun w => goContainsList normalizedPred.toList w)
      let coverage := (matchedCount : ℚ) / (expectedWords.length : ℚ)
      if coverage ≥ 0.7 then (false, true) else (false, false)
    else (false, false)

/-- The caller-side score mapping of gaia `EvaluateSample` (lines 163–167):
exact 1.0, partial-only 0.5, neither 0. -/
def textScore (exactMatch partMatch : Bool) : ℚ :=
  if exactMatch then 1 else if partMatch then 0.5 else 0

/-- Token shapes of the answer-tag regexps of gaia `extractAnswer`. -/
inductive TagTok where
  | lit (s : String) : TagTok
  | ws : TagTok
  | colonAny : TagTok
  | colonAscii : TagTok

/-- Case-insensitive literal match: drops `p` (given lowercase) from the
head of the input, folding case. -/
def dropLitFold : List Char → List Char → Option (List Char)
  | [], cs => some cs
  | _ :: _, [] => none
  | p :: ptl, c :: ctl => if goToLower c = p then dropLitFold ptl ctl else none

/-- Matches a tag token sequence at the head of the input, returning the
suffix after the tag: literals fold case, `ws` is `\s+` (greedy, always
followed by a non-space literal here), `colonAny` is `[：:]`, `colonAscii`
a plain colon. -/
def matchTagPrefix : List TagTok → List Char → Option (List Char)
  | [], cs => some cs
  | .lit s :: tl, cs =>
    match dropLitFold s.toList cs with
    | some rest => matchTagPrefix tl rest
    | none => none
  | .ws :: tl, c :: ctl =>
    if reIsSpace c then matchTagPrefix tl (ctl.dropWhile reIsSpace) else none
  | .ws :: _, [] => none
  | .colonAny :: tl, c :: ctl =>
    if c = ':' ∨ c = '：' then matchTagPrefix tl ctl else none
  | .colonAny :: _, [] => none
  | .colonAscii :: tl, c :: ctl =>
    if c = ':' then matchTagPrefix tl ctl else none
  | .colonAscii :: _, [] => none

/-- The largest index of a non-newline character, if any. -/
def lastNonNl (S : List Char) : Option Nat :=
  match S.reverse.findIdx? (fun c => c ≠ '\n') with
  | some r => some (S.length - 1 - r)
  | none => none

/-- The `\s*(.+?)(?:\n|$)` capture after a matched tag: the greedy `\s*`
prefers the longest whitespace run, then the lazy capture stops at the
first newline or the end; when the whole suffix is whitespace the greedy
run backtracks to the last position from which a non-empty newline-free
capture can start (such a capture is all-whitespace, hence trims to
nothing). -/
def tagCapture (S : List Char) : Option (List Char) :=
  let T := S.dropWhile reIsSpace
  if T.isEmpty then
    match lastNonNl S with
    | some k => some ((S.drop k).takeWhile (fun c => c ≠ '\n'))
    | none => none
  else some (T.takeWhile (fun c => c ≠ '\n'))

/-- `FindStringSubmatch` of one answer-tag regexp: the leftmost position
where the tag and a capture both complete; positions where only the tag
matches are skipped.  Fuel is the input length plus one. -/
def findTagMatchF (toks : List TagTok) : Nat → List Char → Option (List Char)
  | 0, _ => none
  | _ + 1, [] => none
  | n + 1, c :: rest =>
    match matchTagPrefix toks (c :: rest) with
    | some suffix =>
      match tagCapture suffix with
      | some cap => some cap
      | none => findTagMatchF toks n rest
    | none => findTagMatchF toks n rest

/-- The `FINAL\s+ANSWER:` tag. -/
def finalAnswerToks : List TagTok := [.lit "final", .ws, .lit "answer", .colonAscii]

/-- The `答案[：:]` tag. -/
def answerCnToks : List TagTok := [.lit "答案", .colonAny]

/-- The `Answer[：:]` tag. -/
def answerToks : List TagTok := [.lit "answer", .colonAny]

/-- The `The\s+answer\s+is[：:]` tag. -/
def theAnswerIsToks : List TagTok := [.lit "the", .ws, .lit "answer", .ws, .lit "is", .colonAny]

/-- Splits on newlines, keeping empty lines (models `strings.Split`). -/
def splitLinesAux : List Char → List Char → List (List Char)
  | [], acc => [acc.reverse]
  | '\n' :: rest, acc => acc.reverse :: splitLinesAux rest []
  | c :: rest, acc => splitLinesAux rest (c :: acc)

/-- Models gaia `extractAnswer`: trim; empty responses yield empty; the
four tag regexps are tried in order and the first capture is trimmed and
returned; otherwise the last non-empty line (trimmed); otherwise the
trimmed response itself. -/
def extractAnswer (response : String) : String :=
  let respCs := goTrimSpace response.toList
  if respCs.isEmpty then ""
  else
    let tryTag := fun (toks : List TagTok) =>
      (findTagMatchF toks (respCs.length + 1) respCs).map
        (fun cap => (goTrimSpace cap).asString)
    match tryTag finalAnswerToks with
    | some a => a
    | none =>
      match tryTag answerCnToks with
      | some a => a
      | none =>
        match tryTag answerToks with
        | some a => a
        | none =>
          match tryTag theAnswerIsToks with
          | some a => a
          | none =>
            match (splitLinesAux respCs []).reverse.find?
                (fun line => !(goTrimSpace line).isEmpty) with
            | some line => (goTrimSpace line).asString
            | none => respCs.asString

/-- Models gaia `EvaluateSample` after the agent invocation: extract the
answer, require a string-typed expected answer, evaluate the match and map
it to success flags and the 1.0 / 0.5 / 0 score. -/
def EvaluateSample (sample : Sample) (agentOut : Except String String) : SampleResultM :=
  match agentOut with
  | .error e => ⟨sample.ID, false, false, 0, e, none⟩
  | .ok response =>
    let predictedAnswer := extractAnswer response
    match sample.Expected with
    | .str expectedAnswer =>
      let m := evaluateMatch predictedAnswer expectedAnswer
      ⟨sample.ID, m.1, m.2, textScore m.1 m.2, "", none⟩
    | _ => ⟨sample.ID, false, false, 0, "期望答案格式错误", none⟩

/-- Models the sample loop of gaia `Evaluate` (lines 59–98): every
per-sample result is appended to the detailed results and the loop
continues to the next sample; `EvaluateSample` never returns a non-nil Go
error, so the loop's error branch is never taken. -/
def Evaluate (agentOut : Sample → Except String String) (samples : List Sample) :
    List SampleResultM :=
  samples.foldl (fun results sample =>
    results ++ [EvaluateSample sample (agentOut sample)]) []

end gaia

/-- Models `evaluation.JudgeScore`: four rubric dimensions, the derived
total, and free-text comments. -/
structure JudgeScore where
  Correctness : ℚ
  Clarity : ℚ
  DifficultyMatch : ℚ
  Completeness : ℚ
  TotalScore : ℚ
  Comments : String

namespace datagen

/-- The JSON source that `parseJudgeResponse` attempts to parse: the first
fenced code block's capture when one exists, else the raw response. -/
def judgeJsonSource (response : String) : String :=
  match (scanCodeBlocksF response.toList.length response.toList).head? with
  | some cap => cap.asString
  | none => response

/-- The object parse inside `parseJudgeResponse`: `none` on any decode
failure (non-object JSON included, since the target is a
`map[string]interface{}`). -/
def judgeParsedObj (response : String) : Option Fields :=
  match goJsonUnmarshal (judgeJsonSource response) with
  | some (.obj fs) => some fs
  | _ => none

/-- One dimension read of `parseJudgeResponse`: a `float64`-typed field
overrides the default 3.0 (`parsed[k].(float64)` type assertion). -/
def getDimNum (parsed : Fields) (k : String) : ℚ :=
  match parsed.lookup k with
  | some (.num v) => v
  | _ => 3

/-- The comments read of `parseJudgeResponse`: a string-typed field
overrides the default empty string. -/
def getComments (parsed : Fields) : String :=
  match parsed.lookup "comments" with
  | some (.str v) => v
  | _ => ""

/-- Models datagen `parseJudgeResponse`: every dimension defaults to 3.0
and is overridden only by a `float64`-typed field of the parsed object;
`comments` comes from a string-typed field; the total score is always
recomputed as the arithmetic mean of the four dimensions, never taken from
the input. -/
def parseJudgeResponse (response : String) : JudgeScore :=
  let dims : ℚ × ℚ × ℚ × ℚ × String :=
    match judgeParsedObj response with
    | none => (3, 3, 3, 3, "")
    | some parsed =>
      (getDimNum parsed "correctness", getDimNum parsed "clarity",
        getDimNum parsed "difficulty_match", getDimNum parsed "completeness",
        getComments parsed)
  match dims with
  | (c, cl, dm, co, comments) => ⟨c, cl, dm, co, (c + cl + dm + co) / 4, comments⟩

/-- Models datagen `EvaluateSample` after the LLM call: parse the judge
score, recompute the total as the mean of the four dimensions, pass at
mean ≥ 3.0 (boundary inclusive); no error is recorded for any response
text. -/
def EvaluateSample (sample : Sample) (llmOut : Except String String) : SampleResultM :=
  match llmOut with
  | .error e => ⟨sample.ID, false, false, 0, e, none⟩
  | .ok content =>
    let score := parseJudgeResponse content
    let totalScore :=
      (score.Correctness + score.Clarity + score.DifficultyMatch + score.Completeness) / 4
    ⟨sample.ID, decide (totalScore ≥ 3), false, totalScore, "", none⟩

end datagen

namespace gaia

/-- Models `evaluation.LevelMetrics` (the fields the analysis reads). -/
structure LevelMetricsM where
  Level : Nat
  Total : Nat
  ExactMatches : Nat
  ExactMatchRate : ℚ

/-- The payload of gaia `AnalyzeDifficultyProgression` (the Go function
packs the same data into a `map[string]interface{}`). -/
structure ProgressionAnalysis where
  levelRates : List (Nat × ℚ)
  dropL1L2 : Option ℚ
  dropL1L3 : Option ℚ
  dropL2L3 : Option ℚ
  performancePattern : String

/-- Go map read `rates[l]`: the zero value 0.0 for a missing level. -/
def rateAt (rates : List (Nat × ℚ)) (l : Nat) : ℚ :=
  match rates.lookup l with
  | some r => r
  | none => 0

/-- Models gaia `AnalyzeDifficultyProgression`: per-level exact-match
rates, level-to-level drops (only for level pairs both present), and the
performance pattern — `expected_degradation` when level 1 beats level 2
and (with three or more levels) level 2 beats level 3,
`anomaly_level2_better` when level 2 beats level 1, `inconsistent`
otherwise, empty with fewer than two levels. -/
def AnalyzeDifficultyProgression (levelMetrics : List (Nat × LevelMetricsM)) :
    ProgressionAnalysis :=
  let rates := levelMetrics.map (fun lv => (lv.1, lv.2.ExactMatchRate))
  let has := fun (l : Nat) => (rates.lookup l).isSome
  let d12 := if has 1 ∧ has 2 then some (rateAt rates 1 - rateAt rates 2) else none
  let d13 := if has 1 ∧ has 3 then some (rateAt rates 1 - rateAt rates 3) else none
  let d23 := if has 2 ∧ has 3 then some (rateAt rates 2 - rateAt rates 3) else none
  let pat :=
    if 2 ≤ rates.length then
      if rateAt rates 1 > rateAt rates 2 ∧ (rates.length < 3 ∨ rateAt rates 2 > rateAt rates 3)
        then "expected_degradation"
      else if rateAt rates 1 < rateAt rates 2 then "anomaly_level2_better"
      else "inconsistent"
    else ""
  ⟨rates, d12, d13, d23, pat⟩

end gaia

namespace gaia

/-- No two adjacent whitespace characters. -/
def noDoubleSpace : List Char → Bool
  | c1 :: c2 :: rest => !(goIsSpace c1 && goIsSpace c2) && noDoubleSpace (c2 :: rest)
  | _ => true

/-- The normal form that `normalizeAnswer` aims at: trimmed, lowercase,
single-spaced, no leading article, no trailing punctuation, none of the
five currency/percent symbols, and no thousands-separator comma pattern.
`normalizeAnswer` is the identity exactly on such strings (it is not
idempotent in general, because stripping symbols or collapsing whitespace
can expose a new leading article or trailing punctuation). -/
def isNormalForm (s : String) : Bool :=
  let cs := s.toList
  cs.all (fun c => goToLower c = c) &&
  cs.all (fun c => !goIsSpace c || c = ' ') &&
  noDoubleSpace cs &&
  cs.head?.all (fun c => !goIsSpace c) &&
  cs.getLast?.all (fun c => !goIsSpace c && !goIsPunct c) &&
  !(("the ".toList).isPrefixOf cs) &&
  !(("a ".toList).isPrefixOf cs) &&
  !(("an ".toList).isPrefixOf cs) &&
  cs.all (fun c => c ≠ '$' && c ≠ '%' && c ≠ '¥' && c ≠ '€' && c ≠ '£') &&
  !hasCommaPattern cs

end gaia

namespace datagen

/-- Whether a dimension field of the judge response is benign: absent,
non-numeric, or a number within the rubric range `[1, 5]`.  (The parser
itself never clamps.) -/
def judgeDimWithin (response k : String) : Bool :=
  match judgeParsedObj response with
  | none => true
  | some parsed =>
    match parsed.lookup k with
    | some (.num v) => decide (1 ≤ v) && decide (v ≤ 5)
    | _ => true

end datagen

theorem asString_toList (s : String) : (s.toList).asString = s := rfl

theorem toList_asString (l : List Char) : (l.asString).toList = l := rfl

theorem string_length_eq_toList_length (s : String) : s.length = s.toList.length := rfl

namespace gaia

theorem isCommaWindow_shape {s : List Char} (h : isCommaWindow s = true) :
    ∃ a b c d tl, s = a :: ',' :: b :: c :: d :: tl := by
  rw [isCommaWindow.eq_def] at h
  split at h
  · rename_i a b c d tl
    exact ⟨a, b, c, d, tl, rfl⟩
  · simp at h

theorem commaStep_length_le (s : List Char) : (commaStep s).length ≤ s.length := by
  induction s using commaStep.induct with
  | case1 a b c d rest hd ih =>
    simp only [commaStep, hd, if_true]
    simp only [List.length_cons] at ih ⊢
    omega
  | case2 a b c d rest hd ih =>
    simp only [commaStep, hd, if_false, Bool.false_eq_true]
    simp only [List.length_cons] at ih ⊢
    omega
  | case3 c rest hshape ih =>
    simp only [commaStep, List.length_cons] at ih ⊢
    omega
  | case4 => simp [commaStep]

theorem isCommaWindow_cons_false (c : Char) (rest : List Char)
    (hshape : ∀ (b c' d : Char) (tl : List Char), rest = ',' :: b :: c' :: d :: tl → False) :
    isCommaWindow (c :: rest) = false := by
  cases hwc : isCommaWindow (c :: rest) with
  | false => rfl
  | true =>
    obtain ⟨a, b, c', d, tl, heq⟩ := isCommaWindow_shape hwc
    have hr : rest = ',' :: b :: c' :: d :: tl := by
      injection heq with h1 h2
    exact absurd hr (fun hc => hshape _ _ _ _ hc)

theorem commaStep_length_lt (s : List Char) (h : hasCommaPattern s = true) :
    (commaStep s).length < s.length := by
  induction s using commaStep.induct with
  | case1 a b c d rest hd ih =>
    simp only [commaStep, hd, if_true]
    have hle := commaStep_length_le rest
    simp only [List.length_cons]
    omega
  | case2 a b c d rest hd ih =>
    have hw : isCommaWindow (a :: ',' :: b :: c :: d :: rest) = false := by
      simp [isCommaWindow, hd]
    rw [hasCommaPattern, hw] at h
    simp only [Bool.false_or] at h
    have hlt := ih h
    simp only [commaStep, hd, if_false, Bool.false_eq_true]
    simp only [List.length_cons] at hlt ⊢
    omega
  | case3 c rest hshape ih =>
    have hw : isCommaWindow (c :: rest) = false := isCommaWindow_cons_false c rest hshape
    rw [hasCommaPattern, hw] at h
    simp only [Bool.false_or] at h
    have hlt := ih h
    simp only [commaStep, List.length_cons] at hlt ⊢
    omega
  | case4 => simp [hasCommaPattern] at h

theorem removeCommasLoop_no_pattern :
    ∀ (n : Nat) (s : List Char), s.length ≤ n →
      hasCommaPattern (removeCommasLoop n s) = false := by
  intro n
  induction n with
  | zero =>
    intro s hlen
    have hs : s = [] := List.eq_nil_of_length_eq_zero (Nat.le_zero.mp hlen)
    subst hs
    rfl
  | succ n ih =>
    intro s hlen
    cases hp : hasCommaPattern s with
    | true =>
      rw [removeCommasLoop, hp]
      simp only [if_pos rfl]
      exact ih _ (by have := commaStep_length_lt s hp; omega)
    | false =>
      rw [removeCommasLoop, hp]
      simp [hp]

theorem removeCommasLoop_id (n : Nat) (s : List Char) (h : hasCommaPattern s = false) :
    removeCommasLoop n s = s := by
  cases n with
  | zero => rfl
  | succ n => rw [removeCommasLoop, h]; simp

theorem removeNumberCommas_no_pattern (s : String) :
    hasCommaPattern (removeNumberCommas s).toList = false := by
  unfold removeNumberCommas
  rw [toList_asString]
  exact removeCommasLoop_no_pattern s.length s.toList (Nat.le_of_eq rfl)

theorem removeNumberCommas_id (s : String) (h : hasCommaPattern s.toList = false) :
    removeNumberCommas s = s := by
  unfold removeNumberCommas
  rw [removeCommasLoop_id _ _ h, asString_toList]

end gaia

/-- C4: the normalizer's thousands-separator removal repeatedly replaces
`d,ddd` patterns until none remains (first conjunct: no pattern survives;
second: comma patterns that never matched are left untouched), and the
normalizer meets the five concrete examples: `1,000,000 → 1000000`,
`1,23` unchanged, `The answer → answer`, `$100 → 100`, and whitespace
collapse on `  extra  spaces  `. -/
theorem gaia_removeNumberCommas_spec :
    (∀ s : String, gaia.hasCommaPattern (gaia.removeNumberCommas s).toList = false) ∧
    (∀ s : String, gaia.hasCommaPattern s.toList = false → gaia.removeNumberCommas s = s) ∧
    gaia.normalizeAnswer "1,000,000" = "1000000" ∧
    gaia.normalizeAnswer "1,23" = "1,23" ∧
    gaia.normalizeAnswer "The answer" = "answer" ∧
    gaia.normalizeAnswer "$100" = "100" ∧
    gaia.normalizeAnswer "  extra  spaces  " = "extra spaces" :=
  ⟨gaia.removeNumberCommas_no_pattern, gaia.removeNumberCommas_id,
    by decide, by decide, by decide, by decide, by decide⟩

/-- C4 witness: the second conjunct applied at the concrete non-thousands
string `1,23`. -/
theorem gaia_removeNumberCommas_spec_witness :
    gaia.hasCommaPattern "1,23".toList = false ∧ gaia.removeNumberCommas "1,23" = "1,23" :=
  ⟨by decide, gaia_removeNumberCommas_spec.2.1 "1,23" (by decide)⟩

namespace bfcl

theorem parseGroundTruthItems_eq_nil :
    ∀ items : Elems, (∀ v ∈ items.toList, parseGroundTruthItem v = []) →
      parseGroundTruthItems items = []
  | .nil, _ => rfl
  | .cons v tl, h => by
    rw [parseGroundTruthItems, h v (by simp [Elems.toList]),
      parseGroundTruthItems_eq_nil tl (fun w hw => h w (by simp [Elems.toList]; exact .inr hw))]
    rfl

theorem gtMapCalls_names :
    ∀ fs : Fields, (gtMapCalls fs).map (fun c => c.Name) = (Fields.toPairs fs).map (fun kv => kv.1)
  | .nil => rfl
  | .cons k v tl => by
    simp only [gtMapCalls, Fields.toPairs, List.map_cons, gtMapCalls_names tl]

end bfcl

/-- C10: no vacuous success in function-call matching — with an empty
predicted list, or a ground truth parsing to an empty expected list,
`evaluateMatch` returns success `false` and score 0; and a ground-truth
list every entry of which is skipped as unparsable parses to the empty
expected list. -/
theorem bfcl_no_vacuous_success :
    (∀ (predicted : List FunctionCall) (gt : Value),
      predicted = [] ∨ bfcl.parseGroundTruth gt = .ok [] →
      (bfcl.evaluateMatch predicted gt).success = false ∧
        (bfcl.evaluateMatch predicted gt).score = 0) ∧
    (∀ items : Elems, (∀ v ∈ items.toList, bfcl.parseGroundTruthItem v = []) →
      bfcl.parseGroundTruth (.arr items) = .ok []) := by
  constructor
  · rintro predicted gt (rfl | hok)
    · unfold bfcl.evaluateMatch
      cases hpg : bfcl.parseGroundTruth gt with
      | error e => exact ⟨rfl, rfl⟩
      | ok calls =>
        unfold bfcl.evaluateMatchCore
        simp
    · unfold bfcl.evaluateMatch
      rw [hok]
      unfold bfcl.evaluateMatchCore
      by_cases hp : predicted.length = 0 <;> simp [hp]
  · intro items hall
    show bfcl.parseGroundTruthFuel _ _ = _
    rw [bfcl.parseGroundTruthFuel, bfcl.parseGroundTruthItems_eq_nil items hall]

/-- C10 witness: an empty predicted list against a ground-truth list whose
single entry (a bare number) is skipped as unparsable. -/
theorem bfcl_no_vacuous_success_witness :
    ((bfcl.evaluateMatch [] (.arr (.cons (.num 5) .nil))).success = false ∧
      (bfcl.evaluateMatch [] (.arr (.cons (.num 5) .nil))).score = 0) ∧
    bfcl.parseGroundTruth (.arr (.cons (.num 5) .nil)) = .ok [] :=
  ⟨bfcl_no_vacuous_success.1 [] (.arr (.cons (.num 5) .nil)) (Or.inl rfl),
    bfcl_no_vacuous_success.2 (.cons (.num 5) .nil)
      (by intro v hv; simp [Elems.toList] at hv; subst hv; rfl)⟩

/-- C7: a ground-truth mapping whose keys are function names parses to one
expected call per key (the call names are exactly the keys, in order), a
non-empty list-valued parameter collapses to its first element, and the
concrete ground truth `{"f": {"x": [1,2]}}` parses to the single call `f`
with `x == 1`. -/
theorem bfcl_groundTruth_map_format :
    (∀ fs : Fields, fs.lookup "name" = none →
      (bfcl.parseGroundTruthItem (.obj fs)).map (fun c => c.Name) =
        (Fields.toPairs fs).map (fun kv => kv.1)) ∧
    (∀ (x : Value) (xs : Elems), bfcl.canonParamVal (.arr (.cons x xs)) = x) ∧
    bfcl.parseGroundTruth
        (.obj (.cons "f"
          (.obj (.cons "x" (.arr (.cons (.num 1) (.cons (.num 2) .nil))) .nil)) .nil)) =
      .ok [⟨"f", .cons "x" (.num 1) .nil⟩] := by
  refine ⟨?_, fun x xs => rfl, rfl⟩
  intro fs h
  rw [bfcl.parseGroundTruthItem, h]
  exact bfcl.gtMapCalls_names fs

/-- C7 witness: the map-format conjunct applied at a concrete one-key
ground-truth mapping. -/
theorem bfcl_groundTruth_map_format_witness :
    (bfcl.parseGroundTruthItem (.obj (.cons "f" (.obj .nil) .nil))).map (fun c => c.Name) =
      (Fields.toPairs (.cons "f" (.obj .nil) .nil)).map (fun kv => kv.1) :=
  bfcl_groundTruth_map_format.1 (.cons "f" (.obj .nil) .nil) rfl

theorem pair_mem_of_lookup {l : List (Nat × ℚ)} {k : Nat} {v : ℚ}
    (h : l.lookup k = some v) : (k, v) ∈ l := by
  induction l with
  | nil => simp [List.lookup] at h
  | cons p tl ih =>
    rcases p with ⟨a, b⟩
    rw [List.lookup] at h
    cases hak : (k == a) with
    | true =>
      rw [hak] at h
      simp only [Option.some.injEq] at h
      subst h
      have : k = a := by simpa using hak
      subst this
      exact List.mem_cons_self _ _
    | false =>
      rw [hak] at h
      exact List.mem_cons_of_mem _ (ih h)

/-- C9: for a level-metrics map containing levels 1, 2 and 3, the analysis
reports drops `rate1 − rate2` and `rate1 − rate3`, classifies a map where
level 2 beats level 1 as the anomalous pattern, and on the concrete rates
`{1: 0.8, 2: 0.5, 3: 0.2}` reports `expected_degradation` with drops
exactly 0.3 and 0.6. -/
theorem gaia_difficulty_progression :
    (∀ (lm : List (Nat × gaia.LevelMetricsM)) (r1 r2 r3 : ℚ),
      (lm.map (fun lv => (lv.1, lv.2.ExactMatchRate))).lookup 1 = some r1 →
      (lm.map (fun lv => (lv.1, lv.2.ExactMatchRate))).lookup 2 = some r2 →
      (lm.map (fun lv => (lv.1, lv.2.ExactMatchRate))).lookup 3 = some r3 →
      (gaia.AnalyzeDifficultyProgression lm).dropL1L2 = some (r1 - r2) ∧
      (gaia.AnalyzeDifficultyProgression lm).dropL1L3 = some (r1 - r3) ∧
      (r1 < r2 →
        (gaia.AnalyzeDifficultyProgression lm).performancePattern = "anomaly_level2_better")) ∧
    ((gaia.AnalyzeDifficultyProgression
        [(1, ⟨1, 0, 0, 0.8⟩), (2, ⟨2, 0, 0, 0.5⟩), (3, ⟨3, 0, 0, 0.2⟩)]).performancePattern =
      "expected_degradation" ∧
      (gaia.AnalyzeDifficultyProgression
        [(1, ⟨1, 0, 0, 0.8⟩), (2, ⟨2, 0, 0, 0.5⟩), (3, ⟨3, 0, 0, 0.2⟩)]).dropL1L2 = some 0.3 ∧
      (gaia.AnalyzeDifficultyProgression
        [(1, ⟨1, 0, 0, 0.8⟩), (2, ⟨2, 0, 0, 0.5⟩), (3, ⟨3, 0, 0, 0.2⟩)]).dropL1L3 = some 0.6) := by
  constructor
  · intro lm r1 r2 r3 h1 h2 h3
    have hlen : 3 ≤ (lm.map (fun lv => (lv.1, lv.2.ExactMatchRate))).length := by
      have hm1 := pair_mem_of_lookup h1
      have hm2 := pair_mem_of_lookup h2
      have hm3 := pair_mem_of_lookup h3
      have hsub : [(1, r1), (2, r2), (3, r3)] ⊆
          lm.map (fun lv => (lv.1, lv.2.ExactMatchRate)) := by
        intro x hx
        simp only [List.mem_cons, List.not_mem_nil, or_false] at hx
        rcases hx with rfl | rfl | rfl <;> assumption
      have hnd : ([(1, r1), (2, r2), (3, r3)] : List (Nat × ℚ)).Nodup := by
        simp [List.nodup_cons, Prod.ext_iff]
      exact (hnd.subperm hsub).length_le
    unfold gaia.AnalyzeDifficultyProgression
    simp only [gaia.rateAt, h1, h2, h3, Option.isSome_some]
    refine ⟨by simp, by simp, fun hlt => ?_⟩
    rw [if_pos (by omega)]
    rw [if_neg (by rintro ⟨hgt, -⟩; exact absurd hgt (not_lt.mpr (le_of_lt hlt)))]
    rw [if_pos hlt]
  · exact ⟨by decide, by decide, by decide⟩

/-- C9 witness: the general conjunct applied at the concrete anomalous map
`{1: 0.2, 2: 0.5, 3: 0.9}` (level 2 beats level 1). -/
theorem gaia_difficulty_progression_witness :
    (gaia.AnalyzeDifficultyProgression
      [(1, ⟨1, 0, 0, 0.2⟩), (2, ⟨2, 0, 0, 0.5⟩), (3, ⟨3, 0, 0, 0.9⟩)]).dropL1L2 =
        some (0.2 - 0.5) ∧
    (gaia.AnalyzeDifficultyProgression
      [(1, ⟨1, 0, 0, 0.2⟩), (2, ⟨2, 0, 0, 0.5⟩), (3, ⟨3, 0, 0, 0.9⟩)]).dropL1L3 =
        some (0.2 - 0.9) ∧
    (gaia.AnalyzeDifficultyProgression
      [(1, ⟨1, 0, 0, 0.2⟩), (2, ⟨2, 0, 0, 0.5⟩), (3, ⟨3, 0, 0, 0.9⟩)]).performancePattern =
      "anomaly_level2_better" := by
  have h := gaia_difficulty_progression.1
    [(1, ⟨1, 0, 0, 0.2⟩), (2, ⟨2, 0, 0, 0.5⟩), (3, ⟨3, 0, 0, 0.9⟩)]
    0.2 0.5 0.9 (by decide) (by decide) (by decide)
  exact ⟨h.1, h.2.1, h.2.2 (by decide)⟩

/-- C5: judge parse degradation — when no JSON object can be parsed from
the response (from the fenced code block if present, else the raw text),
the parser returns all four dimensions at the default 3.0 with total 3.0
and empty comments; the sample is then marked successful, because the
recomputed mean 3.0 meets the boundary-inclusive ≥ 3.0 threshold, and no
error is recorded.  For every response the total score is recomputed as
the arithmetic mean of the four dimensions rather than taken from the
input. -/
theorem datagen_judge_parse_degradation :
    (∀ response : String, datagen.judgeParsedObj response = none →
      datagen.parseJudgeResponse response = ⟨3, 3, 3, 3, 3, ""⟩ ∧
      ∀ sample : Sample, datagen.EvaluateSample sample (.ok response) =
        ⟨sample.ID, true, false, 3, "", none⟩) ∧
    (∀ response : String,
      (datagen.parseJudgeResponse response).TotalScore =
        ((datagen.parseJudgeResponse response).Correctness +
          (datagen.parseJudgeResponse response).Clarity +
          (datagen.parseJudgeResponse response).DifficultyMatch +
          (datagen.parseJudgeResponse response).Completeness) / 4) := by
  constructor
  · intro response h
    have hp : datagen.parseJudgeResponse response = ⟨3, 3, 3, 3, 3, ""⟩ := by
      unfold datagen.parseJudgeResponse
      rw [h]
      norm_num
    refine ⟨hp, fun sample => ?_⟩
    show (let score := datagen.parseJudgeResponse response
      let totalScore :=
        (score.Correctness + score.Clarity + score.DifficultyMatch + score.Completeness) / 4
      (⟨sample.ID, decide (totalScore ≥ 3), false, totalScore, "", none⟩ : SampleResultM)) = _
    rw [hp]
    norm_num
  · intro response
    unfold datagen.parseJudgeResponse
    cases datagen.judgeParsedObj response <;> simp

/-- C5 witness: a response with no parsable JSON at all. -/
theorem datagen_judge_parse_degradation_witness :
    datagen.parseJudgeResponse "hello" = ⟨3, 3, 3, 3, 3, ""⟩ :=
  (datagen_judge_parse_degradation.1 "hello" rfl).1

namespace gaia

theorem evaluateMatch_eq (p e : String) :
    evaluateMatch p e =
      (decide (normalizeAnswer p = normalizeAnswer e),
        decide (normalizeAnswer p = normalizeAnswer e) ||
        goContains (normalizeAnswer p) (normalizeAnswer e) ||
        goContains (normalizeAnswer e) (normalizeAnswer p) ||
        (decide (0 < (goFields (normalizeAnswer e).toList).length) &&
          decide ((0.7 : ℚ) ≤
            (((goFields (normalizeAnswer e).toList).countP
                (fun w => goContainsList (normalizeAnswer p).toList w) : ℚ) /
              ((goFields (normalizeAnswer e).toList).length : ℚ))))) := by
  unfold evaluateMatch
  by_cases h1 : normalizeAnswer p = normalizeAnswer e
  · simp [h1]
  · rw [if_neg h1, decide_eq_false h1]
    simp only [Bool.false_or]
    by_cases h2 : (goContains (normalizeAnswer p) (normalizeAnswer e) ||
        goContains (normalizeAnswer e) (normalizeAnswer p)) = true
    · rw [if_pos h2]
      have h2' : goContains (normalizeAnswer p) (normalizeAnswer e) = true ∨
          goContains (normalizeAnswer e) (normalizeAnswer p) = true := by simpa using h2
      rcases h2' with h | h <;> simp [h]
    · rw [if_neg h2]
      simp only [Bool.or_eq_true, not_or, Bool.not_eq_true] at h2
      rw [h2.1, h2.2]
      simp only [Bool.false_or]
      split_ifs with hlen hcov
      · exact congrArg (fun y => ((false : Bool), y))
          (by rw [decide_eq_true hlen, decide_eq_true hcov]; rfl)
      · exact congrArg (fun y => ((false : Bool), y))
          (by rw [decide_eq_false (fun hc => hcov hc), Bool.and_false])
      · exact congrArg (fun y => ((false : Bool), y))
          (by rw [decide_eq_false hlen, Bool.false_and])

end gaia

/-- C2: the text matcher evaluates its rules in order — exact equality of
the normalized strings gives `(true, true)`; otherwise containment in
either direction gives `(false, true)`; otherwise word coverage at the
0.7 threshold gives `(false, true)`; otherwise `(false, false)` — so the
pair is exactly `(exact, exact ∨ contains ∨ coverage)`; exact success
implies partial success; the caller maps exact to 1.0, partial-only to
0.5, neither to 0.0; and the three concrete examples behave as specified. -/
theorem gaia_textMatch_policy :
    (∀ p e : String,
      gaia.evaluateMatch p e =
        (decide (gaia.normalizeAnswer p = gaia.normalizeAnswer e),
          decide (gaia.normalizeAnswer p = gaia.normalizeAnswer e) ||
          goContains (gaia.normalizeAnswer p) (gaia.normalizeAnswer e) ||
          goContains (gaia.normalizeAnswer e) (gaia.normalizeAnswer p) ||
          (decide (0 < (goFields (gaia.normalizeAnswer e).toList).length) &&
            decide ((0.7 : ℚ) ≤
              (((goFields (gaia.normalizeAnswer e).toList).countP
                  (fun w => goContainsList (gaia.normalizeAnswer p).toList w) : ℚ) /
                ((goFields (gaia.normalizeAnswer e).toList).length : ℚ)))))) ∧
    (∀ p e : String, (gaia.evaluateMatch p e).1 ≤ (gaia.evaluateMatch p e).2) ∧
    gaia.textScore true true = 1 ∧ gaia.textScore false true = 0.5 ∧
    gaia.textScore false false = 0 ∧
    gaia.evaluateMatch "Paris" "paris" = (true, true) ∧
    gaia.evaluateMatch "The capital is Paris" "Paris" = (false, true) ∧
    gaia.evaluateMatch "banana" "apple" = (false, false) := by
  refine ⟨gaia.evaluateMatch_eq, fun p e => ?_, rfl, rfl, rfl, by decide, by decide, by decide⟩
  rw [gaia.evaluateMatch_eq]
  cases hd : decide (gaia.normalizeAnswer p = gaia.normalizeAnswer e) <;> simp [hd]

namespace bfcl

theorem fields_countP_le_length (p : String → Value → Bool) :
    ∀ fs : Fields, Fields.countP p fs ≤ Fields.length fs
  | .nil => le_refl 0
  | .cons k v tl => by
    rw [Fields.countP, Fields.length]
    have := fields_countP_le_length p tl
    split_ifs <;> omega

theorem matchedParams_le (p e : FunctionCall) :
    matchedParams p e ≤ Fields.length e.Arguments :=
  fields_countP_le_length _ _

theorem compareFunctionCall_nonneg (p e : FunctionCall) : 0 ≤ compareFunctionCall p e := by
  unfold compareFunctionCall
  split_ifs
  · exact le_refl 0
  · exact zero_le_one
  · exact div_nonneg (Nat.cast_nonneg _) (Nat.cast_nonneg _)

theorem compareFunctionCall_le_one (p e : FunctionCall) : compareFunctionCall p e ≤ 1 := by
  unfold compareFunctionCall
  split_ifs with h1 h2
  · exact zero_le_one
  · exact le_refl 1
  · have hlen : (0 : ℚ) < (Fields.length e.Arguments : ℚ) := by
      have : 0 < Fields.length e.Arguments := Nat.pos_of_ne_zero h2
      exact_mod_cast this
    rw [div_le_one hlen]
    exact_mod_cast matchedParams_le p e

theorem max_choice_eq (b s : ℚ) : (if s > b then s else b) = max b s := by
  rcases lt_or_ge b s with h | h
  · rw [if_pos h, max_eq_right (le_of_lt h)]
  · rw [if_neg (not_lt.mpr h), max_eq_left h]

theorem bestScore_eq_foldl_max (predicted : List FunctionCall) (e : FunctionCall) :
    bestScore predicted e =
      (predicted.map (fun p => compareFunctionCall p e)).foldl max 0 := by
  unfold bestScore
  rw [List.foldl_map]
  congr 1
  funext b p
  exact max_choice_eq b (compareFunctionCall p e)

theorem foldl_max_init_le {α : Type} (f : α → ℚ) :
    ∀ (l : List α) (a : ℚ), a ≤ l.foldl (fun b x => max b (f x)) a
  | [], a => le_refl a
  | x :: l, a =>
    le_trans (le_max_left a (f x)) (foldl_max_init_le f l (max a (f x)))

theorem foldl_max_le {α : Type} (f : α → ℚ) (c : ℚ) :
    ∀ (l : List α) (a : ℚ), a ≤ c → (∀ x ∈ l, f x ≤ c) →
      l.foldl (fun b x => max b (f x)) a ≤ c
  | [], _, ha, _ => ha
  | x :: l, a, ha, hl =>
    foldl_max_le f c l (max a (f x)) (max_le ha (hl x (List.mem_cons_self _ _)))
      (fun y hy => hl y (List.mem_cons_of_mem _ hy))

theorem foldl_max_mem_le {α : Type} (f : α → ℚ) :
    ∀ (l : List α) (a : ℚ) (x : α), x ∈ l → f x ≤ l.foldl (fun b y => max b (f y)) a
  | y :: l, a, x, hx => by
    rcases List.mem_cons.mp hx with rfl | hx2
    · exact le_trans (le_max_right a (f x)) (foldl_max_init_le f l _)
    · exact foldl_max_mem_le f l (max a (f y)) x hx2

theorem bestScore_nonneg (predicted : List FunctionCall) (e : FunctionCall) :
    0 ≤ bestScore predicted e := by
  rw [bestScore_eq_foldl_max]
  exact foldl_max_init_le _ _ 0

theorem bestScore_le_one (predicted : List FunctionCall) (e : FunctionCall) :
    bestScore predicted e ≤ 1 := by
  rw [bestScore_eq_foldl_max]
  refine foldl_max_le _ _ _ 0 zero_le_one ?_
  intro x hx
  rcases List.mem_map.mp hx with ⟨p, _, rfl⟩
  exact compareFunctionCall_le_one p e

theorem bestScore_one_iff (predicted : List FunctionCall) (e : FunctionCall) :
    1 ≤ bestScore predicted e ↔ bestScore predicted e = 1 :=
  ⟨fun h => le_antisymm (bestScore_le_one predicted e) h, fun h => le_of_eq h.symm⟩

theorem bestScore_nil (e : FunctionCall) : bestScore [] e = 0 := rfl

theorem evaluateMatch_fold_eq (predicted : List FunctionCall) :
    ∀ (l : List FunctionCall) (a : Nat) (b : ℚ),
      l.foldl (fun (acc : Nat × ℚ) e =>
        let bs := bestScore predicted e
        (acc.1 + (if bs ≥ 1 then 1 else 0), acc.2 + bs)) (a, b) =
      (a + l.countP (fun e => decide (1 ≤ bestScore predicted e)),
        b + (l.map (bestScore predicted)).sum)
  | [], a, b => by simp
  | e :: l, a, b => by
    rw [List.foldl_cons, evaluateMatch_fold_eq predicted l]
    rw [List.countP_cons, List.map_cons, List.sum_cons]
    have hc : (if bestScore predicted e ≥ 1 then 1 else 0) =
        (if decide (1 ≤ bestScore predicted e) = true then 1 else 0) := by
      simp [ge_iff_le]
    simp only [Prod.mk.injEq]
    constructor
    · rw [hc]
      omega
    · ring

end bfcl

/-- C1: function-call scoring postcondition — for a non-empty expected
list, each expected call's best-match score is the fold-maximum over
predicted calls of the per-pair score, the per-pair score is 0 on a name
mismatch, 1.0 on a name match with no expected parameters, and otherwise
the matched-parameter fraction; the sample succeeds exactly when every
expected call's best-match score is 1, and the overall score is the
arithmetic mean of the best-match scores. -/
theorem bfcl_evaluateMatch_postcondition (predicted expected : List FunctionCall)
    (hne : expected ≠ []) :
    ((bfcl.evaluateMatchCore predicted expected).success =
      decide (∀ e ∈ expected, bfcl.bestScore predicted e = 1)) ∧
    ((bfcl.evaluateMatchCore predicted expected).score =
      (expected.map (bfcl.bestScore predicted)).sum / (expected.length : ℚ)) ∧
    (∀ e : FunctionCall, bfcl.bestScore predicted e =
      (predicted.map (fun p => bfcl.compareFunctionCall p e)).foldl max 0) ∧
    (∀ p e : FunctionCall, bfcl.compareFunctionCall p e =
      if p.Name ≠ e.Name then 0
      else if Fields.length e.Arguments = 0 then 1
      else (bfcl.matchedParams p e : ℚ) / (Fields.length e.Arguments : ℚ)) := by
  have hlen0 : expected.length ≠ 0 := fun h => hne (List.eq_nil_of_length_eq_zero h)
  refine ⟨?_, ?_, fun e => bfcl.bestScore_eq_foldl_max predicted e, fun p e => rfl⟩ <;>
    by_cases hp : predicted.length = 0
  · have hpnil : predicted = [] := List.eq_nil_of_length_eq_zero hp
    subst hpnil
    obtain ⟨e0, he0⟩ := List.exists_mem_of_ne_nil expected hne
    have hcore : bfcl.evaluateMatchCore [] expected = ⟨false, 0, none⟩ := by
      unfold bfcl.evaluateMatchCore
      simp
    rw [hcore]
    symm
    rw [decide_eq_false]
    intro hall
    have h0 := hall e0 he0
    rw [bfcl.bestScore_nil] at h0
    exact absurd h0 (by norm_num)
  · unfold bfcl.evaluateMatchCore
    rw [if_neg hp, if_neg hlen0]
    rw [bfcl.evaluateMatch_fold_eq]
    show decide _ = _
    refine decide_eq_decide.mpr ?_
    rw [Nat.zero_add]
    rw [List.countP_eq_length]
    constructor
    · intro hc e he
      exact (bfcl.bestScore_one_iff predicted e).mp (by simpa using hc e he)
    · intro hc e he
      simpa using (bfcl.bestScore_one_iff predicted e).mpr (hc e he)
  · have hpnil : predicted = [] := List.eq_nil_of_length_eq_zero hp
    subst hpnil
    have hcore : bfcl.evaluateMatchCore [] expected = ⟨false, 0, none⟩ := by
      unfold bfcl.evaluateMatchCore
      simp
    rw [hcore]
    have hmap : expected.map (bfcl.bestScore []) = expected.map (fun _ => (0 : ℚ)) :=
      List.map_congr_left (fun e _ => bfcl.bestScore_nil e)
    rw [hmap]
    simp
  · unfold bfcl.evaluateMatchCore
    rw [if_neg hp, if_neg hlen0]
    rw [bfcl.evaluateMatch_fold_eq]
    show (0 + (expected.map (bfcl.bestScore predicted)).sum) / (expected.length : ℚ) = _
    rw [zero_add]

/-- C1 witness: a single predicted call exactly matching the single
expected call. -/
theorem bfcl_evaluateMatch_postcondition_witness :
    (bfcl.evaluateMatchCore [⟨"f", .nil⟩] [⟨"f", .nil⟩]).success =
      decide (∀ e ∈ ([⟨"f", .nil⟩] : List FunctionCall), bfcl.bestScore [⟨"f", .nil⟩] e = 1) :=
  (bfcl_evaluateMatch_postcondition [⟨"f", .nil⟩] [⟨"f", .nil⟩] (List.cons_ne_nil _ _)).1

namespace bfcl

theorem sum_bestScore_nonneg (predicted expected : List FunctionCall) :
    0 ≤ (expected.map (bestScore predicted)).sum := by
  refine List.sum_nonneg ?_
  intro x hx
  rcases List.mem_map.mp hx with ⟨e, _, rfl⟩
  exact bestScore_nonneg predicted e

theorem sum_bestScore_le (predicted expected : List FunctionCall) :
    (expected.map (bestScore predicted)).sum ≤ (expected.length : ℚ) := by
  have h := List.sum_le_card_nsmul (expected.map (bestScore predicted)) 1 ?_
  · rw [List.length_map] at h
    simpa [nsmul_eq_mul] using h
  · intro x hx
    rcases List.mem_map.mp hx with ⟨e, _, rfl⟩
    exact bestScore_le_one predicted e

theorem evaluateMatchCore_score_eq (predicted expected : List FunctionCall)
    (h1 : predicted.length ≠ 0) (h2 : expected.length ≠ 0) :
    (evaluateMatchCore predicted expected).score =
      (expected.map (bestScore predicted)).sum / (expected.length : ℚ) := by
  unfold evaluateMatchCore
  rw [if_neg h1, if_neg h2, evaluateMatch_fold_eq]
  show (0 + (expected.map (bestScore predicted)).sum) / ((expected.length : ℕ) : ℚ) = _
  rw [zero_add]

theorem evaluateMatchCore_score_bounds (predicted expected : List FunctionCall) :
    0 ≤ (evaluateMatchCore predicted expected).score ∧
      (evaluateMatchCore predicted expected).score ≤ 1 := by
  by_cases h1 : predicted.length = 0
  · unfold evaluateMatchCore
    rw [if_pos h1]
    exact ⟨le_refl 0, zero_le_one⟩
  by_cases h2 : expected.length = 0
  · unfold evaluateMatchCore
    rw [if_neg h1, if_pos h2]
    exact ⟨le_refl 0, zero_le_one⟩
  rw [evaluateMatchCore_score_eq predicted expected h1 h2]
  have hpos : (0 : ℚ) < (expected.length : ℚ) := by
    exact_mod_cast Nat.pos_of_ne_zero h2
  constructor
  · exact div_nonneg (sum_bestScore_nonneg predicted expected) (le_of_lt hpos)
  · rw [div_le_one hpos]
    exact sum_bestScore_le predicted expected

theorem evaluateMatch_score_bounds (predicted : List FunctionCall) (gt : Value) :
    0 ≤ (evaluateMatch predicted gt).score ∧ (evaluateMatch predicted gt).score ≤ 1 := by
  unfold evaluateMatch
  cases parseGroundTruth gt with
  | error e => exact ⟨le_refl 0, zero_le_one⟩
  | ok expectedCalls => exact evaluateMatchCore_score_bounds predicted expectedCalls

end bfcl

namespace datagen

theorem parseJudgeResponse_some {response : String} {parsed : Fields}
    (h : judgeParsedObj response = some parsed) :
    parseJudgeResponse response =
      ⟨getDimNum parsed "correctness", getDimNum parsed "clarity",
        getDimNum parsed "difficulty_match", getDimNum parsed "completeness",
        (getDimNum parsed "correctness" + getDimNum parsed "clarity" +
          getDimNum parsed "difficulty_match" + getDimNum parsed "completeness") / 4,
        getComments parsed⟩ := by
  unfold parseJudgeResponse
  rw [h]

theorem dim_match_bounds :
    ∀ ov : Option Value,
      (match ov with
        | some (.num v) => decide (1 ≤ v) && decide (v ≤ 5)
        | _ => true) = true →
      1 ≤ (match ov with | some (.num v) => v | _ => (3 : ℚ)) ∧
        (match ov with | some (.num v) => v | _ => (3 : ℚ)) ≤ 5
  | none, _ => by norm_num
  | some .null, _ => by norm_num
  | some (.bool b), _ => by norm_num
  | some (.num v), h => by simpa using h
  | some (.str s), _ => by norm_num
  | some (.arr es), _ => by norm_num
  | some (.obj fs), _ => by norm_num

theorem getDimNum_bounds {response : String} {parsed : Fields} {k : String}
    (hobj : judgeParsedObj response = some parsed)
    (h : judgeDimWithin response k = true) :
    1 ≤ getDimNum parsed k ∧ getDimNum parsed k ≤ 5 := by
  unfold judgeDimWithin at h
  rw [hobj] at h
  exact dim_match_bounds (parsed.lookup k) h

theorem EvaluateSample_ok_score (sample : Sample) (response : String) :
    (EvaluateSample sample (.ok response)).Score =
      ((parseJudgeResponse response).Correctness + (parseJudgeResponse response).Clarity +
        (parseJudgeResponse response).DifficultyMatch +
        (parseJudgeResponse response).Completeness) / 4 := rfl

end datagen

/-- C6 counterexample: the judge-response parser performs no clamping, so
for the judge response text `{"correctness": 9}` the recovered correctness
dimension is 9, outside the claimed range [1, 5] — the invariant does not
hold for every possible judge response text. -/
theorem datagen_judge_dimension_out_of_range :
    (datagen.parseJudgeResponse "\x7b\"correctness\": 9\x7d").Correctness = 9 ∧
    ¬(1 ≤ (datagen.parseJudgeResponse "\x7b\"correctness\": 9\x7d").Correctness ∧
      (datagen.parseJudgeResponse "\x7b\"correctness\": 9\x7d").Correctness ≤ 5) := by
  constructor
  · decide
  · decide

/-- C6 (amended): score bounds — text scores lie in `[0, 1]`; function-call
sample scores lie in `[0, 1]` for every predicted list and ground truth;
and the judge parser's recovered dimensions, its recomputed total, and the
judge sample score all lie in `[1, 5]` provided every numeric dimension
field of the parsed judge response lies in `[1, 5]` (absent or non-numeric
fields default to 3.0; the parser never clamps, so an out-of-range numeric
field escapes the range, cf. the counterexample). -/
theorem score_bounds_amended :
    (∀ ex pt : Bool, 0 ≤ gaia.textScore ex pt ∧ gaia.textScore ex pt ≤ 1) ∧
    (∀ (predicted : List FunctionCall) (gt : Value),
      0 ≤ (bfcl.evaluateMatch predicted gt).score ∧
        (bfcl.evaluateMatch predicted gt).score ≤ 1) ∧
    (∀ response : String,
      datagen.judgeDimWithin response "correctness" = true →
      datagen.judgeDimWithin response "clarity" = true →
      datagen.judgeDimWithin response "difficulty_match" = true →
      datagen.judgeDimWithin response "completeness" = true →
      (1 ≤ (datagen.parseJudgeResponse response).Correctness ∧
        (datagen.parseJudgeResponse response).Correctness ≤ 5) ∧
      (1 ≤ (datagen.parseJudgeResponse response).Clarity ∧
        (datagen.parseJudgeResponse response).Clarity ≤ 5) ∧
      (1 ≤ (datagen.parseJudgeResponse response).DifficultyMatch ∧
        (datagen.parseJudgeResponse response).DifficultyMatch ≤ 5) ∧
      (1 ≤ (datagen.parseJudgeResponse response).Completeness ∧
        (datagen.parseJudgeResponse response).Completeness ≤ 5) ∧
      (1 ≤ (datagen.parseJudgeResponse response).TotalScore ∧
        (datagen.parseJudgeResponse response).TotalScore ≤ 5) ∧
      (∀ sample : Sample,
        1 ≤ (datagen.EvaluateSample sample (.ok response)).Score ∧
          (datagen.EvaluateSample sample (.ok response)).Score ≤ 5)) := by
  refine ⟨by decide, bfcl.evaluateMatch_score_bounds, ?_⟩
  intro response h1 h2 h3 h4
  cases hobj : datagen.judgeParsedObj response with
  | none =>
    have hp : datagen.parseJudgeResponse response = ⟨3, 3, 3, 3, 3, ""⟩ := by
      unfold datagen.parseJudgeResponse
      rw [hobj]
      norm_num
    rw [hp]
    refine ⟨by norm_num, by norm_num, by norm_num, by norm_num, by norm_num, ?_⟩
    intro sample
    rw [datagen.EvaluateSample_ok_score, hp]
    norm_num
  | some parsed =>
    have hp := datagen.parseJudgeResponse_some hobj
    have b1 := datagen.getDimNum_bounds hobj h1
    have b2 := datagen.getDimNum_bounds hobj h2
    have b3 := datagen.getDimNum_bounds hobj h3
    have b4 := datagen.getDimNum_bounds hobj h4
    rw [hp]
    refine ⟨b1, b2, b3, b4, ⟨by simp only []; linarith [b1.1, b2.1, b3.1, b4.1],
      by simp only []; linarith [b1.2, b2.2, b3.2, b4.2]⟩, ?_⟩
    intro sample
    rw [datagen.EvaluateSample_ok_score, hp]
    constructor
    · simp only []
      linarith [b1.1, b2.1, b3.1, b4.1]
    · simp only []
      linarith [b1.2, b2.2, b3.2, b4.2]

/-- C6 witness: the judge conjunct applied at a response with no parsable
JSON (all four dimension guards hold trivially). -/
theorem score_bounds_amended_witness :
    1 ≤ (datagen.parseJudgeResponse "hello").TotalScore ∧
      (datagen.parseJudgeResponse "hello").TotalScore ≤ 5 :=
  (score_bounds_amended.2.2 "hello" rfl rfl rfl rfl).2.2.2.2.1

theorem foldl_append_eq_map {α β : Type} (f : α → β) :
    ∀ (l : List α) (init : List β),
      l.foldl (fun acc s => acc ++ [f s]) init = init ++ l.map f
  | [], init => by simp
  | s :: l, init => by
    rw [List.foldl_cons, foldl_append_eq_map f l, List.map_cons]
    simp

/-- C8 counterexample: for a sample whose ground truth cannot be parsed,
the evaluator leaves `SampleResult.Error` empty and records the parse
failure only in the `gt_parse_error` detail — contradicting the claim that
the error message is recorded on `SampleResult.Error`. -/
theorem bfcl_gt_parse_error_not_on_error :
    (bfcl.EvaluateSample ⟨"s1", "", .null, "", 1⟩
        (.ok "[\x7b\"name\": \"f\"\x7d]") (some (.str "oops"))).Error = "" ∧
    (bfcl.EvaluateSample ⟨"s1", "", .null, "", 1⟩
        (.ok "[\x7b\"name\": \"f\"\x7d]") (some (.str "oops"))).GtParseError =
      some "解析字符串 ground truth 失败: 无效 JSON" ∧
    (bfcl.EvaluateSample ⟨"s1", "", .null, "", 1⟩
        (.ok "[\x7b\"name\": \"f\"\x7d]") (some (.str "oops"))).Success = false ∧
    (bfcl.EvaluateSample ⟨"s1", "", .null, "", 1⟩
        (.ok "[\x7b\"name\": \"f\"\x7d]") (some (.str "oops"))).Score = 0 :=
  ⟨rfl, rfl, rfl, rfl⟩

/-- C8 (amended): per-sample recoverable errors never abort the run — both
evaluation loops produce exactly one result per sample, in dataset order,
each independent of the other samples; an agent-call failure, an
extraction failure, or a missing ground truth is recorded on that sample's
`Error` with success flags false and score 0; a ground-truth parse failure
likewise yields success false and score 0 but leaves `Error` empty,
recording the message only in the `gt_parse_error` detail. -/
theorem per_sample_errors_recoverable :
    (∀ (agentOut : Sample → Except String String) (samples : List Sample),
      gaia.Evaluate agentOut samples =
        samples.map (fun s => gaia.EvaluateSample s (agentOut s))) ∧
    (∀ (agentOut : Sample → Except String String)
        (groundTruthOf : Sample → Option Value) (samples : List Sample),
      bfcl.Evaluate agentOut groundTruthOf samples =
        samples.map (fun s => bfcl.EvaluateSample s (agentOut s) (groundTruthOf s))) ∧
    (∀ (sample : Sample) (e : String) (gt : Option Value),
      bfcl.EvaluateSample sample (.error e) gt = ⟨sample.ID, false, false, 0, e, none⟩ ∧
      gaia.EvaluateSample sample (.error e) = ⟨sample.ID, false, false, 0, e, none⟩) ∧
    (∀ (sample : Sample) (response : String) (gt : Option Value) (msg : String),
      bfcl.extractFunctionCalls response = .error msg →
      bfcl.EvaluateSample sample (.ok response) gt =
        ⟨sample.ID, false, false, 0, "提取函数调用失败: " ++ msg, none⟩) ∧
    (∀ (sample : Sample) (response : String) (calls : List FunctionCall),
      bfcl.extractFunctionCalls response = .ok calls →
      bfcl.EvaluateSample sample (.ok response) none =
        ⟨sample.ID, false, false, 0, "未找到 ground truth", none⟩) ∧
    (∀ (sample : Sample) (response : String) (calls : List FunctionCall)
        (gt : Value) (msg : String),
      bfcl.extractFunctionCalls response = .ok calls →
      bfcl.parseGroundTruth gt = .error msg →
      bfcl.EvaluateSample sample (.ok response) (some gt) =
        ⟨sample.ID, false, false, 0, "", some msg⟩) := by
  refine ⟨fun agentOut samples => foldl_append_eq_map _ samples [],
    fun agentOut groundTruthOf samples => foldl_append_eq_map _ samples [],
    fun sample e gt => ⟨rfl, rfl⟩, ?_, ?_, ?_⟩
  · intro sample response gt msg hext
    simp only [bfcl.EvaluateSample]
    rw [hext]
  · intro sample response calls hext
    simp only [bfcl.EvaluateSample]
    rw [hext]
  · intro sample response calls gt msg hext hgt
    simp only [bfcl.EvaluateSample]
    rw [hext]
    show (let m := bfcl.evaluateMatch calls gt
      (⟨sample.ID, m.success, false, m.score, "", m.gtParseError⟩ : SampleResultM)) = _
    unfold bfcl.evaluateMatch
    rw [hgt]

/-- C8 witness: the ground-truth-parse-failure case applied at a concrete
sample. -/
theorem per_sample_errors_recoverable_witness :
    bfcl.EvaluateSample ⟨"s1", "", .null, "", 1⟩
        (.ok "[\x7b\"name\": \"f\"\x7d]") (some (.str "oops")) =
      ⟨"s1", false, false, 0, "", some "解析字符串 ground truth 失败: 无效 JSON"⟩ :=
  per_sample_errors_recoverable.2.2.2.2.2 ⟨"s1", "", .null, "", 1⟩
    "[\x7b\"name\": \"f\"\x7d]" [⟨"f", .nil⟩] (.str "oops")
    "解析字符串 ground truth 失败: 无效 JSON" rfl rfl

theorem dropWhile_eq_self_of_head {p : Char → Bool} :
    ∀ l : List Char, l.head?.all (fun c => !p c) = true → l.dropWhile p = l
  | [], _ => rfl
  | c :: l, h => by
    have hc : p c = false := by simpa using h
    simp [List.dropWhile, hc]

theorem goTrimSpace_eq_self (cs : List Char)
    (h1 : cs.head?.all (fun c => !goIsSpace c) = true)
    (h2 : cs.getLast?.all (fun c => !goIsSpace c) = true) :
    goTrimSpace cs = cs := by
  unfold goTrimSpace
  rw [dropWhile_eq_self_of_head cs h1]
  rw [dropWhile_eq_self_of_head cs.reverse (by rw [List.head?_reverse]; exact h2)]
  exact List.reverse_reverse cs

theorem map_id_of_fixed {f : Char → Char} :
    ∀ l : List Char, (∀ c ∈ l, f c = c) → l.map f = l
  | [], _ => rfl
  | c :: l, h => by
    rw [List.map_cons, h c (List.mem_cons_self _ _),
      map_id_of_fixed l (fun x hx => h x (List.mem_cons_of_mem _ hx))]

namespace gaia

theorem stripArticle_id (cs : List Char)
    (h1 : ("the ".toList).isPrefixOf cs = false)
    (h2 : ("a ".toList).isPrefixOf cs = false)
    (h3 : ("an ".toList).isPrefixOf cs = false) :
    stripArticle cs = cs := by
  unfold stripArticle
  rw [if_neg (by rw [h1]; exact Bool.false_ne_true),
    if_neg (by rw [h2]; exact Bool.false_ne_true),
    if_neg (by rw [h3]; exact Bool.false_ne_true)]

theorem trimRightPunct_id (cs : List Char)
    (h : cs.getLast?.all (fun c => !goIsPunct c) = true) :
    trimRightPunct cs = cs := by
  unfold trimRightPunct
  rw [dropWhile_eq_self_of_head cs.reverse (by rw [List.head?_reverse]; exact h)]
  exact List.reverse_reverse cs

theorem removeChar_id (c : Char) (cs : List Char) (h : ∀ x ∈ cs, (x ≠ c : Bool) = true) :
    removeChar c cs = cs :=
  List.filter_eq_self.mpr h

theorem goFieldsAux_ne_nil :
    ∀ (l : List Char) (acc : List Char), acc ≠ [] → goFieldsAux l acc ≠ []
  | [], acc, h => by
    have hemp : acc.isEmpty = false := by
      cases acc with
      | nil => exact absurd rfl h
      | cons a t => rfl
    simp [goFieldsAux, hemp]
  | c :: rest, acc, h => by
    rw [goFieldsAux]
    by_cases hc : goIsSpace c = true
    · have hemp : acc.isEmpty = false := by
        cases acc with
        | nil => exact absurd rfl h
        | cons a t => rfl
      simp [hc, hemp]
    · simp only [hc, Bool.false_eq_true, if_false]
      exact goFieldsAux_ne_nil rest (c :: acc) (List.cons_ne_nil c acc)

theorem noDoubleSpace_tail {c : Char} {rest : List Char}
    (h : noDoubleSpace (c :: rest) = true) : noDoubleSpace rest = true := by
  cases rest with
  | nil => rfl
  | cons r rest2 =>
    rw [noDoubleSpace] at h
    simp only [Bool.and_eq_true] at h
    exact h.2

theorem joinSpaces_cons (w : List Char) (fs : List (List Char)) (h : fs ≠ []) :
    joinSpaces (w :: fs) = w ++ ' ' :: joinSpaces fs := by
  cases fs with
  | nil => exact absurd rfl h
  | cons g gs => rfl

theorem joinSpaces_goFieldsAux :
    ∀ (cs : List Char) (acc : List Char),
      (∀ c ∈ cs, goIsSpace c = true → c = ' ') →
      noDoubleSpace cs = true →
      cs.getLast?.all (fun c => !goIsSpace c) = true →
      (acc = [] → cs.head?.all (fun c => !goIsSpace c) = true) →
      joinSpaces (goFieldsAux cs acc) = acc.reverse ++ cs
  | [], acc, _, _, _, _ => by
    cases acc with
    | nil => rfl
    | cons a t =>
      show joinSpaces [(a :: t).reverse] = (a :: t).reverse ++ []
      rw [List.append_nil]
      rfl
  | c :: rest, acc, hsp, hnd, hlast, hhead => by
    by_cases hc : goIsSpace c = true
    · have hc' : c = ' ' := hsp c (List.mem_cons_self _ _) hc
      cases acc with
      | nil =>
        have hcontra := hhead rfl
        simp [hc] at hcontra
      | cons a t =>
        cases rest with
        | nil =>
          exfalso
          simp [hc] at hlast
        | cons r rest2 =>
          have hr : goIsSpace r = false := by
            rw [noDoubleSpace] at hnd
            simp only [Bool.and_eq_true] at hnd
            have h1 := hnd.1
            cases hgr : goIsSpace r with
            | false => rfl
            | true => rw [hc, hgr] at h1; simp at h1
          have hfs : goFieldsAux (r :: rest2) [] ≠ [] := by
            rw [goFieldsAux]
            simp only [hr, Bool.false_eq_true, if_false]
            exact goFieldsAux_ne_nil rest2 [r] (List.cons_ne_nil r [])
          have hred : goFieldsAux (c :: r :: rest2) (a :: t) =
              (a :: t).reverse :: goFieldsAux (r :: rest2) [] := by
            rw [goFieldsAux]
            simp [hc]
          have hlast2 := hlast
          rw [List.getLast?_cons_cons] at hlast2
          have ih := joinSpaces_goFieldsAux (r :: rest2) []
            (fun x hx => hsp x (List.mem_cons_of_mem _ hx))
            (noDoubleSpace_tail hnd) hlast2
            (fun _ => by simp [hr])
          rw [hred, joinSpaces_cons _ _ hfs, ih]
          simp [hc']
    · have hred : goFieldsAux (c :: rest) acc = goFieldsAux rest (c :: acc) := by
        rw [goFieldsAux]
        simp only [hc, Bool.false_eq_true, if_false]
      have hlast2 : rest.getLast?.all (fun x => !goIsSpace x) = true := by
        cases rest with
        | nil => rfl
        | cons r rest2 =>
          have htmp := hlast
          rw [List.getLast?_cons_cons] at htmp
          exact htmp
      have ih := joinSpaces_goFieldsAux rest (c :: acc)
        (fun x hx => hsp x (List.mem_cons_of_mem _ hx))
        (noDoubleSpace_tail hnd) hlast2
        (fun hcontra => absurd hcontra (List.cons_ne_nil c acc))
      rw [hred, ih, List.reverse_cons, List.append_assoc]
      rfl

end gaia

/-- C3 counterexample: the answer normalizer is not idempotent — the
normalizer strips only the first leading article, so
`normalizeAnswer "the the cat" = "the cat"`, which normalizes again to
`"cat"`. -/
theorem gaia_normalizeAnswer_not_idempotent :
    gaia.normalizeAnswer (gaia.normalizeAnswer "the the cat") ≠
      gaia.normalizeAnswer "the the cat" := by decide

/-- C3 (amended): the normalizer is the identity on every string already
in normal form — trimmed, lowercase, single-spaced, with no leading
article, no trailing punctuation, none of the five currency/percent
symbols, and no thousands-comma pattern.  (Full idempotence fails: a pass
can expose a fresh leading article or trailing punctuation, cf. the
counterexample.) -/
theorem gaia_normalizeAnswer_fixes_normal_form (s : String)
    (h : gaia.isNormalForm s = true) : gaia.normalizeAnswer s = s := by
  unfold gaia.isNormalForm at h
  simp only [Bool.and_eq_true, List.all_eq_true, decide_eq_true_eq] at h
  obtain ⟨⟨⟨⟨⟨⟨⟨⟨⟨hlow, hsp⟩, hnd⟩, hhead⟩, hlast⟩, hthe⟩, ha2⟩, han⟩, hsym⟩, hcomma⟩ := h
  simp only [Bool.not_eq_true'] at hthe ha2 han
  have hlastSpace : s.toList.getLast?.all (fun c => !goIsSpace c) = true := by
    cases hg : s.toList.getLast? with
    | none => rfl
    | some x =>
      rw [hg] at hlast
      simp only [Option.all_some, Bool.and_eq_true] at hlast
      simp [hlast.1]
  have hlastPunct : s.toList.getLast?.all (fun c => !goIsPunct c) = true := by
    cases hg : s.toList.getLast? with
    | none => rfl
    | some x =>
      rw [hg] at hlast
      simp only [Option.all_some, Bool.and_eq_true] at hlast
      simp [hlast.2]
  have hcomma2 : gaia.hasCommaPattern s.toList = false := by
    simpa using hcomma
  have hsp' : ∀ c ∈ s.toList, goIsSpace c = true → c = ' ' := by
    intro c hc hs
    have := hsp c hc
    rw [hs] at this
    simpa using this
  have hsymAll : ∀ sym : Char, sym ∈ ['$', '%', '¥', '€', '£'] →
      ∀ x ∈ s.toList, (decide (x ≠ sym)) = true := by
    intro sym hsymMem x hx
    have := hsym x hx
    simp only [Bool.and_eq_true, decide_eq_true_eq] at this
    obtain ⟨⟨⟨⟨t1, t2⟩, t3⟩, t4⟩, t5⟩ := this
    fin_cases hsymMem <;> simp [t1, t2, t3, t4, t5]
  simp only [gaia.normalizeAnswer, goFields]
  rw [goTrimSpace_eq_self s.toList hhead hlastSpace]
  rw [map_id_of_fixed s.toList hlow]
  rw [gaia.stripArticle_id s.toList hthe ha2 han]
  rw [gaia.trimRightPunct_id s.toList hlastPunct]
  rw [gaia.removeChar_id '$' s.toList (hsymAll '$' (by simp))]
  rw [gaia.removeChar_id '%' s.toList (hsymAll '%' (by simp))]
  rw [gaia.removeChar_id '¥' s.toList (hsymAll '¥' (by simp))]
  rw [gaia.removeChar_id '€' s.toList (hsymAll '€' (by simp))]
  rw [gaia.removeChar_id '£' s.toList (hsymAll '£' (by simp))]
  rw [asString_toList]
  rw [gaia.removeNumberCommas_id s hcomma2]
  rw [gaia.joinSpaces_goFieldsAux s.toList [] hsp' hnd hlastSpace (fun _ => hhead)]
  rw [List.reverse_nil, List.nil_append]
  exact asString_toList s

/-- C3 witness: a concrete normal-form string fixed by the normalizer. -/
theorem gaia_normalizeAnswer_fixes_normal_form_witness :
    gaia.isNormalForm "cat and dog" = true ∧ gaia.normalizeAnswer "cat and dog" = "cat and dog" :=
  ⟨by decide, gaia_normalizeAnswer_fixes_normal_form "cat and dog" (by decide)⟩

end HelloAgents
